import Mathlib

/-!
# Verification of the json-ld-explorer core pipeline

Shallow embedding of the two core components of the repository:

* `JSONLDProcessor` (graph builder, `src/unnamed/part_004` lines 1-467):
  turns a JSON(-LD) document into a `Graph` of nodes and links.
* `GraphAnalyticsEngine` (`src/unnamed/part_004` lines 675-1005):
  computes structural metrics over a `Graph`.

Modelling conventions:

* JSON documents are the inductive tree type `Json` (parsed JSON: object
  keys are unique, so object-field lookup is first-occurrence lookup).
* JavaScript numbers are modelled by `ℚ`.  All metric arithmetic in the
  engine (density, degrees, clustering, betweenness, closeness, path
  lengths) is exact rational arithmetic in the source except for
  floating-point rounding, which is not modelled.  The square root used
  by eigenvector-centrality normalization is irrational, so the
  eigenvector routine is parametrized by the square-root function; every
  theorem about it below holds for an arbitrary such function.
* `Math.max(...)/Math.min(...)` over an empty list yield `-Infinity` /
  `Infinity` in JavaScript; the degree extrema are therefore modelled in
  `WithBot ℕ` / `WithTop ℕ`, with `⊥` standing for `-Infinity` and `⊤`
  for `Infinity`.
* JavaScript `Map` insertion semantics (insert keeps the position of an
  existing key and overwrites its value, otherwise appends) are modelled
  by `jsSet` on association lists.
* The synthetic id generator of the source mixes a timestamp and a
  random suffix; it is modelled by a per-build counter producing fresh
  ids `node_0, node_1, ...`.  No claim below depends on the concrete
  spelling of synthesized ids.
* Non-string identifier values (`@id` holding a number, array, ...) are
  kept by JavaScript as raw `Map` keys; here they are identified with
  their JavaScript string coercion `jsToString`.  The claims checked
  below are insensitive to this identification.
* Display-only node attributes (`name`, `size`, `group`, `color`) are
  not modelled: no claim mentions them, and they do not influence the
  graph topology or any metric.
-/

/-- A parsed JSON value (the builder's input type `JSONLDData`). -/
inductive Json where
  | null : Json
  | b : Bool → Json
  | num : ℚ → Json
  | str : String → Json
  | arr : List Json → Json
  | obj : List (String × Json) → Json

/-- JavaScript truthiness of a value: `null`, `false`, `0` and `""` are
falsy, everything else (including empty arrays and objects) is truthy. -/
def jsTruthy : Json → Bool
  | Json.null => false
  | Json.b bv => bv
  | Json.num q => q ≠ 0
  | Json.str s => s ≠ ""
  | Json.arr _ => true
  | Json.obj _ => true

mutual

/-- JavaScript string coercion as used in template literals:
`null → "null"`, booleans and numbers via `String(...)` (number
formatting abstracted by `toString` on `ℚ`), arrays join their elements
with `","` (with `null` elements rendered empty), plain objects render
as `"[object Object]"`. -/
def jsToString : Json → String
  | Json.null => "null"
  | Json.b true => "true"
  | Json.b false => "false"
  | Json.num q => toString q
  | Json.str s => s
  | Json.arr elems => String.intercalate "," (jsToStringElems elems)
  | Json.obj _ => "[object Object]"

/-- Array elements under `Array.prototype.join`: `null` renders empty. -/
def jsToStringElems : List Json → List String
  | [] => []
  | Json.null :: rest => "" :: jsToStringElems rest
  | e :: rest => jsToString e :: jsToStringElems rest

end

/-- Key lookup on an association list (`Map.get` / object access),
written with propositional string equality so concrete instances reduce
by `simp`. -/
def jsLookup {α : Type} : List (String × α) → String → Option α
  | [], _ => none
  | (k', v) :: rest, k => if k' = k then some v else jsLookup rest k

/-- Field access `value[key]` on a JSON value: `none` unless the value is
an object carrying the key. -/
def objGet : Json → String → Option Json
  | Json.obj kvs, k => jsLookup kvs k
  | _, _ => none

/-- `value[key]` filtered through JavaScript truthiness, modelling the
pervasive `a[k1] || a[k2] || ...` fallback chains of the source. -/
def truthyGet (j : Json) (k : String) : Option Json :=
  match objGet j k with
  | some v => if jsTruthy v then some v else none
  | none => none

/-- `Object.keys(value).length` (for arrays, the number of elements). -/
def keysCount : Json → ℕ
  | Json.obj kvs => kvs.length
  | Json.arr elems => elems.length
  | _ => 0

/-- `typeof value === 'object' && value !== null` (arrays included). -/
def isObjectLike : Json → Bool
  | Json.obj _ => true
  | Json.arr _ => true
  | _ => false

/-- JavaScript `Map.set` on an association list: overwrite the value of
an existing key in place, otherwise append the new binding. -/
def jsSet {α : Type} : List (String × α) → String → α → List (String × α)
  | [], k, v => [(k, v)]
  | (k', v') :: rest, k, v =>
      if k' = k then (k, v) :: rest else (k', v') :: jsSet rest k v

/-- `Map.has` / object-key presence. -/
def hasKey {α : Type} (m : List (String × α)) (k : String) : Bool :=
  (jsLookup m k).isSome

/-- Lookup with a default value. -/
def lookupD {α : Type} (m : List (String × α)) (k : String) (d : α) : α :=
  (jsLookup m k).getD d

/-- A graph node (display-only fields of the source omitted, see the
header comment): `id` is the unique key, `type` the label (`"Unknown"`,
`"Reference"`, `"Value"`, `"Number"`, `"Boolean"`, or a document type). -/
structure GraphNode where
  id : String
  type : String
  deriving DecidableEq, Repr

/-- A graph link: `type` is the originating relation name ( `"contains"`
for parent containment), `weight ∈ {1, 0.5, 0.3, 0.2}`. -/
structure GraphLink where
  source : String
  target : String
  type : String
  weight : ℚ
  deriving DecidableEq, Repr

/-- The graph produced by the builder and consumed by the engine. -/
structure Graph where
  nodes : List GraphNode
  links : List GraphLink
  deriving DecidableEq, Repr

/-- Mutable state of one `JSONLDProcessor` run: the node map, the link
list, and the counter backing synthetic-id generation. -/
structure BuildState where
  nodeMap : List (String × GraphNode)
  links : List GraphLink
  counter : ℕ
  deriving DecidableEq, Repr

mutual

/-- Number of constructors of a JSON tree: a computable structural size
used to supply recursion fuel to the builder embedding. -/
def jsonSize : Json → ℕ
  | Json.null => 1
  | Json.b _ => 1
  | Json.num _ => 1
  | Json.str _ => 1
  | Json.arr elems => 1 + jsonSizeList elems
  | Json.obj kvs => 1 + jsonSizeKvs kvs

/-- Size of a list of JSON values. -/
def jsonSizeList : List Json → ℕ
  | [] => 0
  | e :: rest => 1 + jsonSize e + jsonSizeList rest

/-- Size of the field list of a JSON object. -/
def jsonSizeKvs : List (String × Json) → ℕ
  | [] => 0
  | (_, v) :: rest => 1 + jsonSize v + jsonSizeKvs rest

end

/-!
The recursive methods of the source are embedded with an explicit fuel
parameter bounding the recursion depth (the JavaScript recursion is
structural over a finite JSON tree, so it is finite; fuel exceeding the
tree size can never run out).  `flattenData` and `build` supply fuel
larger than the recursion depth of the source functions on the given
document, and every structural-invariant theorem below is proved for
all fuel values, so no fuel-sufficiency side conditions arise.
-/

mutual

/-- `flattenData` (source lines 16-46): falsy input flattens to nothing,
arrays flat-map, a `@graph` array unwraps, and any other object yields
itself followed by the flattening of its entity-like values. -/
def flattenF : ℕ → Json → List Json
  | 0, _ => []
  | fuel + 1, data =>
    if ¬ jsTruthy data then []
    else
      match data with
      | Json.arr items => flattenListF fuel items
      | Json.obj kvs =>
          match jsLookup kvs "@graph" with
          | some (Json.arr ag) => flattenListF fuel ag
          | _ =>
              Json.obj kvs :: flattenValuesF fuel kvs
      | d => [d]

/-- The `flatMap` over array items. -/
def flattenListF : ℕ → List Json → List Json
  | 0, _ => []
  | _ + 1, [] => []
  | fuel + 1, i :: rest => flattenF fuel i ++ flattenListF fuel rest

/-- The `Object.values(data).forEach` scan for nested entity-like
values (arrays, or objects carrying a truthy type/id marker). -/
def flattenValuesF : ℕ → List (String × Json) → List Json
  | 0, _ => []
  | _ + 1, [] => []
  | fuel + 1, (_, v) :: rest =>
      (match v with
       | Json.arr elems => flattenF fuel (Json.arr elems)
       | Json.obj kvs =>
           if (truthyGet (Json.obj kvs) "@type").isSome ∨
              (truthyGet (Json.obj kvs) "type").isSome ∨
              (truthyGet (Json.obj kvs) "@id").isSome ∨
              (truthyGet (Json.obj kvs) "id").isSome then
             flattenF fuel (Json.obj kvs)
           else []
       | _ => []) ++ flattenValuesF fuel rest

end

/-- `flattenData` with fuel covering the whole input tree. -/
def flattenData (data : Json) : List Json :=
  flattenF (jsonSize data + 1) data

/-- The builder's mutually recursive entity/relationship traversal,
packaged as one task type so the three source methods share a single
recursion (`ent` = `processEntity`, `rels` = `processRelationships`,
`relVal` = `processRelationshipValue`; the `List` variants are the
`forEach` fan-outs of the source). -/
inductive BuildTask where
  | ent : Json → Option String → BuildTask
  | entList : List Json → Option String → BuildTask
  | rels : List (String × Json) → String → BuildTask
  | relVal : String → String → Json → BuildTask
  | relValList : String → String → List Json → BuildTask

/-- `entity['@id'] || entity.id` (as a string key, see header). -/
def idLookup (entity : Json) : Option String :=
  match truthyGet entity "@id" with
  | some v => some (jsToString v)
  | none =>
      match truthyGet entity "id" with
      | some v => some (jsToString v)
      | none => none

/-- `entity['@type'] || entity.type || 'Unknown'`. -/
def typeLookup (entity : Json) : String :=
  match truthyGet entity "@type" with
  | some v => jsToString v
  | none =>
      match truthyGet entity "type" with
      | some v => jsToString v
      | none => "Unknown"

/-- `String.startsWith`, computed over the character lists (the
built-in operates on byte positions, which the kernel cannot reduce). -/
def jsStartsWith (s pfx : String) : Bool :=
  pfx.data.isPrefixOf s.data

/-- A JavaScript-whitespace character (the common ASCII subset; the
further Unicode whitespace trimmed by JS does not occur in any claim). -/
def isJsWhitespace (c : Char) : Bool :=
  c = ' ' || c = '\t' || c = '\n' || c = '\r'

/-- `String.prototype.trim`, computed over the character lists. -/
def jsTrim (s : String) : String :=
  String.mk (((s.data.dropWhile isJsWhitespace).reverse.dropWhile
    isJsWhitespace).reverse)

/-- `value.startsWith('http://') || value.startsWith('https://')`. -/
def isUrlString (s : String) : Bool :=
  jsStartsWith s "http://" || jsStartsWith s "https://"

/-- The leaf-id sanitization `replace(/[^a-zA-Z0-9_-]/g, '_')`. -/
def sanitizeId (s : String) : String :=
  String.mk (s.data.map
    (fun c => if c.isAlphanum || c = '_' || c = '-' then c else '_'))

/-- Resolving `entity['@id'] || entity.id || this.generateId()`:
either the explicit identifier, or a fresh synthetic id together with
the bumped counter. -/
def resolveId (kvs : List (String × Json)) (st : BuildState) :
    String × BuildState :=
  match idLookup (Json.obj kvs) with
  | some i => (i, st)
  | none => ("node_" ++ toString st.counter,
             { st with counter := st.counter + 1 })

/-- Registering the node of `processEntity` (source lines 67-86):
`nodeMap.set(id, node)` plus the `contains` link when a parent is
present. -/
def registerEntity (id ty : String) (parentId : Option String)
    (st : BuildState) : BuildState :=
  let st := { st with nodeMap := jsSet st.nodeMap id ⟨id, ty⟩ }
  match parentId with
  | some p => { st with links := st.links ++ [⟨p, id, "contains", 1⟩] }
  | none => st

/-- The shared shape of the four leaf branches of
`processRelationshipValue` (source lines 121-189): materialize the leaf
node if its key is fresh, then append the link. -/
def addLeafAndLink (st : BuildState) (sourceId relationshipType leafId
    ty : String) (w : ℚ) : BuildState :=
  let st :=
    if ¬ hasKey st.nodeMap leafId then
      { st with nodeMap := jsSet st.nodeMap leafId ⟨leafId, ty⟩ }
    else st
  { st with links := st.links ++ [⟨sourceId, leafId, relationshipType, w⟩] }

/-- One step of the builder (source lines 52-190): `processEntity`,
`processRelationships` and `processRelationshipValue` as the cases of a
single fuel-guarded recursive function over `BuildTask` (see the fuel
convention above; on exhausted fuel the state is returned unchanged,
a case never reached under the fuel supplied by `build`). -/
def buildGo : ℕ → BuildTask → BuildState → BuildState
  | 0, _, st => st
  | fuel + 1, .ent entity parentId, st =>
      match entity with
      | Json.arr items => buildGo fuel (.entList items parentId) st
      | Json.null => st
      | Json.b _ => st
      | Json.num _ => st
      | Json.str _ => st  -- skip non-object entities
      | Json.obj kvs =>
          let p := resolveId kvs st
          buildGo fuel (.rels kvs p.1)
            (registerEntity p.1 (typeLookup (Json.obj kvs)) parentId p.2)
  | _ + 1, .entList [] _, st => st
  | fuel + 1, .entList (i :: rest) parentId, st =>
      buildGo fuel (.entList rest parentId) (buildGo fuel (.ent i parentId) st)
  | _ + 1, .rels [] _, st => st
  | fuel + 1, .rels ((k, v) :: rest) sourceId, st =>
      let st :=
        if jsStartsWith k "@" then st
        else
          match v with
          | Json.arr elems => buildGo fuel (.relValList sourceId k elems) st
          | w => buildGo fuel (.relVal sourceId k w) st
      buildGo fuel (.rels rest sourceId) st
  | _ + 1, .relValList _ _ [], st => st
  | fuel + 1, .relValList sourceId k (e :: rest), st =>
      buildGo fuel (.relValList sourceId k rest)
        (buildGo fuel (.relVal sourceId k e) st)
  | fuel + 1, .relVal sourceId relationshipType value, st =>
      if isObjectLike value then
        match idLookup value with
        | some targetId =>
            let st := { st with
              links := st.links ++ [⟨sourceId, targetId, relationshipType, 1⟩] }
            if ¬ hasKey st.nodeMap targetId then
              buildGo fuel (.ent value none) st
            else st
        | none =>
            if keysCount value > 0 then
              buildGo fuel (.ent value (some sourceId)) st
            else st
      else
        match value with
        | Json.str s =>
            if isUrlString s then
              addLeafAndLink st sourceId relationshipType s "Reference" (1/2)
            else if jsTrim s ≠ "" ∧ ¬ jsStartsWith relationshipType "@" then
              addLeafAndLink st sourceId relationshipType
                (sanitizeId (sourceId ++ "_" ++ relationshipType ++ "_" ++ s))
                "Value" (3/10)
            else st
        | Json.num q =>
            addLeafAndLink st sourceId relationshipType
              (sourceId ++ "_" ++ relationshipType ++ "_" ++
                jsToString (Json.num q)) "Number" (1/5)
        | Json.b bv =>
            addLeafAndLink st sourceId relationshipType
              (sourceId ++ "_" ++ relationshipType ++ "_" ++
                jsToString (Json.b bv)) "Boolean" (1/5)
        | _ => st  -- null ignored; arrays/objects unreachable here

/-- `new JSONLDProcessor(data).getGraph()`: flatten, process every
top-level entity, read off nodes (map values) and links. -/
def build (data : Json) : Graph :=
  let st := (flattenData data).foldl
    (fun st e => buildGo (3 * jsonSize e + 10) (.ent e none) st) ⟨[], [], 0⟩
  ⟨st.nodeMap.map (·.2), st.links⟩

/-- Fuel needed by each builder task: along every recursive call of
`buildGo` this quantity strictly decreases, so any larger fuel never
runs out below the task (`build` supplies `3 * jsonSize + 10`). -/
def taskNeed : BuildTask → ℕ
  | .ent e _ => 3 * jsonSize e + 1
  | .entList l _ => 3 * jsonSizeList l + 1
  | .rels kvs _ => 3 * jsonSizeKvs kvs
  | .relVal _ _ v => 3 * jsonSize v + 2
  | .relValList _ _ l => 3 * jsonSizeList l + 2

/-- Call-site precondition of each builder task: the parent or source
id handed down by the caller is already registered in the node map
(`processEntity` registers a node before processing its relationships,
and passes ids only after registering them). -/
def taskPre : BuildTask → BuildState → Prop
  | .ent _ parentId, st => ∀ p, parentId = some p → hasKey st.nodeMap p = true
  | .entList _ parentId, st =>
      ∀ p, parentId = some p → hasKey st.nodeMap p = true
  | .rels _ sourceId, st => hasKey st.nodeMap sourceId = true
  | .relVal sourceId _ _, st => hasKey st.nodeMap sourceId = true
  | .relValList sourceId _ _, st => hasKey st.nodeMap sourceId = true

/-!
## Graph Analytics Engine

Embedding of `GraphAnalyticsEngine` (source lines 675-1005).  The
engine's instance fields `adjacencyList` and `nodeMap` are built once
from the graph; theorems below take them as the values of
`buildAdjacencyList` and `engineNodeIds`.

The TypeScript type of `link.source`/`link.target` is `string | node`
(a d3 rendering artifact); the builder only ever produces string
endpoints, and the engine immediately projects either form to the id
string, so links are modelled with string endpoints throughout.
-/

/-- Append a neighbor to an id's set if the id is registered
(`adjacencyList.get(id)?.add(nb)`); `Set.add` keeps insertion order and
ignores duplicates. -/
def addNeighbor (m : List (String × List String)) (k nb : String) :
    List (String × List String) :=
  match jsLookup m k with
  | none => m
  | some lst => if nb ∈ lst then m else jsSet m k (lst ++ [nb])

/-- `buildAdjacencyList` (source lines 689-702): one empty set per node,
then each link adds its target to the source's set and its source to the
target's set. -/
def buildAdjacencyList (g : Graph) : List (String × List String) :=
  let init := g.nodes.foldl (fun m n => jsSet m n.id []) []
  g.links.foldl (fun m l => addNeighbor (addNeighbor m l.source l.target)
    l.target l.source) init

/-- The neighbor set of a node id (empty for unknown ids, matching
`this.adjacencyList.get(id) || []`). -/
def adjOf (adj : List (String × List String)) (v : String) : List String :=
  (jsLookup adj v).getD []

/-- The engine's `nodeMap` keys: node ids in first-occurrence order
(`Map.set` keeps the original position of re-inserted keys). -/
def engineNodeIds (g : Graph) : List String :=
  (g.nodes.foldl (fun m n => jsSet m n.id n) []).map (·.1)

/-- `calculateDensity` (source lines 730-734). -/
def calculateDensity (g : Graph) : ℚ :=
  let n : ℚ := g.nodes.length
  if g.nodes.length ≤ 1 then 0
  else (2 * g.links.length) / (n * (n - 1))

/-- `calculateDegrees` (source lines 736-744): an object keyed by node
id holding the neighbor-set size. -/
def calculateDegrees (g : Graph) (adj : List (String × List String)) :
    List (String × ℕ) :=
  g.nodes.foldl (fun m n => jsSet m n.id (adjOf adj n.id).length) []

/-- `calculateAverageDegree` (source lines 746-749). -/
def calculateAverageDegree (degrees : List (String × ℕ)) : ℚ :=
  if degrees.length > 0 then
    ((degrees.map (·.2)).sum : ℚ) / degrees.length
  else 0

/-- `Math.max(...Object.values(degrees))`: `⊥` models the `-Infinity`
returned by `Math.max()` on an empty spread. -/
def jsMaxDegree (degrees : List (String × ℕ)) : WithBot ℕ :=
  (degrees.map (·.2)).foldl (fun acc d => max acc (d : WithBot ℕ)) ⊥

/-- `Math.min(...Object.values(degrees))`: `⊤` models the `Infinity`
returned by `Math.min()` on an empty spread. -/
def jsMinDegree (degrees : List (String × ℕ)) : WithTop ℕ :=
  (degrees.map (·.2)).foldl (fun acc d => min acc (d : WithTop ℕ)) ⊤

/-- Count of adjacent neighbor pairs `(i, j)` with `i < j`
(the `triangles` double loop of source lines 761-768). -/
def trianglesAmong (adj : List (String × List String)) :
    List String → ℕ
  | [] => 0
  | x :: rest =>
      rest.countP (fun y => y ∈ adjOf adj x) + trianglesAmong adj rest

/-- `calculateClusteringCoefficient` (source lines 751-776). -/
def calculateClusteringCoefficient (g : Graph)
    (adj : List (String × List String)) : ℚ :=
  let acc := g.nodes.foldl
    (fun (acc : ℚ × ℕ) node =>
      let neighbors := adjOf adj node.id
      let degree := neighbors.length
      if degree < 2 then acc
      else
        let triangles := trianglesAmong adj neighbors
        let possible : ℚ := (degree * (degree - 1) : ℕ) / 2
        (acc.1 + triangles / possible, acc.2 + 1))
    (0, 0)
  if acc.2 > 0 then acc.1 / acc.2 else 0

/-- One dequeue step of `bfs` (source lines 983-1005); `fuel` bounds the
number of dequeues (each id enters the queue at most once, so any fuel
of at least `|queue| + #ids` computes the full traversal). -/
def bfsAux (adj : List (String × List String)) :
    ℕ → List String → List (String × ℕ) → List String → List (String × ℕ)
  | 0, _, dist, _ => dist
  | _ + 1, [], dist, _ => dist
  | fuel + 1, current :: queue, dist, visited =>
      let step := (adjOf adj current).foldl
        (fun (acc : List String × List (String × ℕ) × List String) nb =>
          let (q, d, vis) := acc
          if nb ∈ vis then (q, d, vis)
          else (q ++ [nb], jsSet d nb (lookupD d current 0 + 1), vis ++ [nb]))
        (queue, dist, visited)
      bfsAux adj fuel step.1 step.2.1 step.2.2

/-- A fuel bound large enough for every traversal loop of the engine:
ids can only be enqueued once each, and only ids occurring as a node or
on a link can ever be enqueued. -/
def engineFuel (g : Graph) : ℕ :=
  g.nodes.length + 2 * g.links.length + 1

/-- `bfs(startNode)`: distances from `startNode` to every reached id. -/
def bfs (g : Graph) (adj : List (String × List String))
    (startNode : String) : List (String × ℕ) :=
  bfsAux adj (engineFuel g) [startNode] [(startNode, 0)] [startNode]

/-- `calculateClosenessCentrality` (source lines 853-873):
`reachableCount / totalDistance` over strictly positive distances. -/
def calculateClosenessCentrality (g : Graph)
    (adj : List (String × List String)) : List (String × ℚ) :=
  (engineNodeIds g).map (fun source =>
    let distances := (bfs g adj source).map (·.2)
    let positives := distances.filter (0 < ·)
    let totalDistance := positives.sum
    let reachableNodes := positives.length
    (source, if reachableNodes > 0 then
        (reachableNodes : ℚ) / totalDistance else 0))

/-- `calculateDiameter` (source lines 952-963): the outer
`Math.max(maxDistance, Math.max(...positives))` absorbs the `-Infinity`
of an empty positive-distance list, so the running maximum starts at `0`
and folds in every positive finite distance. -/
def calculateDiameter (g : Graph)
    (adj : List (String × List String)) : ℕ :=
  (engineNodeIds g).foldl
    (fun maxDistance source =>
      ((bfs g adj source).map (·.2)).foldl
        (fun acc d => if 0 < d then max acc d else acc) maxDistance)
    0

/-- `calculateAveragePathLength` (source lines 965-981). -/
def calculateAveragePathLength (g : Graph)
    (adj : List (String × List String)) : ℚ :=
  let acc := (engineNodeIds g).foldl
    (fun (acc : ℚ × ℕ) source =>
      ((bfs g adj source).map (·.2)).foldl
        (fun (acc : ℚ × ℕ) d =>
          if 0 < d then (acc.1 + d, acc.2 + 1) else acc) acc)
    (0, 0)
  if acc.2 > 0 then acc.1 / acc.2 else 0

/-- Per-source state of the Brandes forward phase (source lines
786-822): the processing stack is accumulated head-first, so its list
order is already the pop (reverse-BFS) order of the back-propagation. -/
structure BrandesState where
  stack : List String
  preds : List (String × List String)
  dist : List (String × ℤ)
  sigma : List (String × ℚ)
  queue : List String
  deriving Repr

/-- The BFS loop of Brandes' algorithm: dequeue, push onto the stack,
then discover/relax every neighbor (distances start at the `-1`
sentinel; shortest-path counts and predecessor lists grow whenever the
neighbor sits one level below the current node). -/
def brandesLoop (adj : List (String × List String)) :
    ℕ → BrandesState → BrandesState
  | 0, st => st
  | _ + 1, ⟨stack, preds, dist, sigma, []⟩ => ⟨stack, preds, dist, sigma, []⟩
  | fuel + 1, ⟨stack, preds, dist, sigma, current :: queue⟩ =>
      let st0 : BrandesState := ⟨current :: stack, preds, dist, sigma, queue⟩
      let st1 := (adjOf adj current).foldl
        (fun (st : BrandesState) neighbor =>
          let currentDist := lookupD st.dist current (-1)
          let neighborDist := lookupD st.dist neighbor (-1)
          let st :=
            if neighborDist < 0 then
              { st with queue := st.queue ++ [neighbor],
                        dist := jsSet st.dist neighbor (currentDist + 1) }
            else st
          if lookupD st.dist neighbor (-1) = currentDist + 1 then
            { st with
              sigma := jsSet st.sigma neighbor
                (lookupD st.sigma neighbor 0 + lookupD st.sigma current 0),
              preds := jsSet st.preds neighbor
                (lookupD st.preds neighbor [] ++ [current]) }
          else st)
        st0
      brandesLoop adj fuel st1

/-- Keys of an association map, used to re-create the per-source `delta`
map over the same node set. -/
def engineNodeIdsOf {α : Type} (m : List (String × α)) : List String :=
  m.map (·.1)

/-- Back-propagation of dependency scores for one source (source lines
824-839): pop the stack, push each node's dependency onto its
predecessors, and accumulate into every non-source node. -/
def brandesBack (source : String) (preds : List (String × List String))
    (sigma : List (String × ℚ)) (stack : List String)
    (bet : List (String × ℚ)) : List (String × ℚ) :=
  let acc := stack.foldl
    (fun (acc : List (String × ℚ) × List (String × ℚ)) current =>
      let (delta, bet) := acc
      let delta := (lookupD preds current []).foldl
        (fun delta pred =>
          let contribution := (lookupD sigma pred 0 / lookupD sigma current 0) *
            (1 + lookupD delta current 0)
          jsSet delta pred (lookupD delta pred 0 + contribution))
        delta
      if current ≠ source then
        (delta, jsSet bet current (lookupD bet current 0 + lookupD delta current 0))
      else (delta, bet))
    ((engineNodeIdsOf preds).map (fun id => (id, (0 : ℚ))), bet)
  acc.2

/-- `calculateBetweennessCentrality` (source lines 778-851): Brandes'
algorithm from every source, then normalization by `2/((n-1)(n-2))` for
`n > 2` (factor `1` otherwise). -/
def calculateBetweennessCentrality (g : Graph)
    (adj : List (String × List String)) : List (String × ℚ) :=
  let nodes := engineNodeIds g
  let bet := nodes.foldl
    (fun bet source =>
      let init : BrandesState :=
        ⟨[], nodes.map (fun n => (n, [])),
         jsSet (nodes.map (fun n => (n, (-1 : ℤ)))) source 0,
         jsSet (nodes.map (fun n => (n, (0 : ℚ)))) source 1,
         [source]⟩
      let fin := brandesLoop adj (engineFuel g) init
      brandesBack source fin.preds fin.sigma fin.stack bet)
    (nodes.map (fun n => (n, (0 : ℚ))))
  let n := nodes.length
  let normFactor : ℚ := if n > 2 then 2 / ((n - 1) * (n - 2) : ℕ) else 1
  bet.map (fun p => (p.1, p.2 * normFactor))

/-- One to `maxIterations` rounds of power iteration (source lines
886-910), parametrized by the square-root routine `sq` used for L2
normalization (see the header comment).  Each round recomputes every
node's score as the sum of its neighbors' scores, normalizes when the
norm is positive while tracking the largest per-node change, and stops
early once that change drops below `1e-6`. -/
def eigenLoop (sq : ℚ → ℚ) (adj : List (String × List String))
    (ids : List String) : ℕ → List (String × ℚ) → List (String × ℚ)
  | 0, centrality => centrality
  | fuel + 1, centrality =>
      let newCentrality := ids.map (fun id =>
        (id, ((adjOf adj id).map (fun nb => lookupD centrality nb 0)).sum))
      let norm := sq ((newCentrality.map (fun p => p.2 * p.2)).sum)
      let next :=
        if norm > 0 then
          (newCentrality.map (fun p => (p.1, p.2 / norm)),
           (newCentrality.map (fun p =>
             |p.2 / norm - lookupD centrality p.1 0|)).foldl max 0)
        else (newCentrality, (0 : ℚ))
      if next.2 < 1 / 1000000 then next.1
      else eigenLoop sq adj ids fuel next.1

/-- `calculateEigenvectorCentrality` (source lines 875-913): scores
start at `1`, with at most `100` iterations. -/
def calculateEigenvectorCentrality (sq : ℚ → ℚ) (g : Graph)
    (adj : List (String × List String)) : List (String × ℚ) :=
  eigenLoop sq adj (engineNodeIds g) 100
    ((engineNodeIds g).map (fun id => (id, 1)))

/-- One node update of `detectCommunities` (source lines 929-946): tally
the communities of the node's neighbors, scan the tallies in ascending
community order (JavaScript objects iterate integer-like keys in
ascending numeric order) keeping the first strictly-larger score, and
relabel when the winner differs from the current community and has a
positive score.  A neighbor absent from the map would read as
`undefined` in the source (possible only when a link endpoint is not a
node); such reads are modelled with default `0` and every theorem below
assumes the `Graph` referential-integrity invariant that rules them
out. -/
def commStep (adj : List (String × List String))
    (st : List (String × ℕ)) (v : String) : List (String × ℕ) :=
  let labels := (adjOf adj v).map (fun nb => lookupD st nb 0)
  let ks := List.insertionSort (· ≤ ·) labels.dedup
  let cur := lookupD st v 0
  let best := ks.foldl
    (fun (b : ℕ × ℕ) c =>
      if labels.count c > b.2 then (c, labels.count c) else b)
    (cur, 0)
  if best.1 ≠ cur ∧ 0 < best.2 then jsSet st v best.1 else st

/-- One full pass of label propagation over all nodes in order. -/
def commPass (adj : List (String × List String)) (ids : List String)
    (st : List (String × ℕ)) : List (String × ℕ) :=
  ids.foldl (commStep adj) st

/-- Each node starts in its own integer community (its index). -/
def commInit (ids : List String) : List (String × ℕ) :=
  ids.enum.map (fun p => (p.2, p.1))

/-- The `while (improved)` loop: repeat full passes until one changes
nothing.  A pass relabels some node exactly when it changes the map, so
the loop condition `improved` is `commPass st ≠ st`.  The source has no
iteration cap; the fuel below is the potential-function bound under
which the loop is proved to reach its fixpoint for well-formed graphs
(see the termination theorem for claim C6). -/
def commLoop (adj : List (String × List String)) (ids : List String) :
    ℕ → List (String × ℕ) → List (String × ℕ)
  | 0, st => st
  | fuel + 1, st =>
      let st' := commPass adj ids st
      if st' = st then st else commLoop adj ids fuel st'

/-- Fuel covering the total number of relabelings possible (from the
termination measure of claim C6) plus one final fixpoint-checking pass. -/
def communitiesFuel (g : Graph) (adj : List (String × List String)) : ℕ :=
  let n := (engineNodeIds g).length
  ((adj.map (·.2.length)).sum) * n + n * n + 1

/-- `detectCommunities` (source lines 915-950). -/
def detectCommunities (g : Graph)
    (adj : List (String × List String)) : List (String × ℕ) :=
  commLoop adj (engineNodeIds g) (communitiesFuel g adj)
    (commInit (engineNodeIds g))

/-- The tally of community `x` among the neighbors of `v` (the count
accumulated into `communityScores[x]` by `detectCommunities`). -/
def tallyAt (adj : List (String × List String)) (st : List (String × ℕ))
    (v : String) (x : ℕ) : ℕ :=
  ((adjOf adj v).map (fun nb => lookupD st nb 0)).count x

/-- The number of (ordered) monochromatic adjacency entries: the
potential whose growth drives label propagation towards a fixpoint. -/
def monoE (adj : List (String × List String)) (ids : List String)
    (st : List (String × ℕ)) : ℕ :=
  (ids.map (fun w => tallyAt adj st w (lookupD st w 0))).sum

/-- Termination measure for label propagation: every relabeling either
strictly increases `monoE` (bounded by the total adjacency size) or
keeps it while strictly decreasing the label sum, so this combined
measure strictly decreases at every relabeling. -/
def commMeasure (adj : List (String × List String)) (ids : List String)
    (st : List (String × ℕ)) : ℕ :=
  ((ids.map (fun w => (adjOf adj w).length)).sum - monoE adj ids st) *
    ids.length + (st.map (·.2)).sum

/-- The `centralityMeasures` record of the analytics report. -/
structure CentralityMeasures where
  betweenness : List (String × ℚ)
  closeness : List (String × ℚ)
  degree : List (String × ℕ)
  eigenvector : List (String × ℚ)
  deriving DecidableEq, Repr

/-- The `GraphAnalytics` report (source lines 704-728). -/
structure GraphAnalytics where
  nodeCount : ℕ
  linkCount : ℕ
  density : ℚ
  averageDegree : ℚ
  maxDegree : WithBot ℕ
  minDegree : WithTop ℕ
  clustering : ℚ
  centralityMeasures : CentralityMeasures
  communities : List (String × ℕ)
  diameter : ℕ
  averagePathLength : ℚ
  deriving DecidableEq, Repr

/-- `calculateAnalytics` (source lines 704-728), assembling every
metric over the adjacency map built by the engine's constructor. -/
def calculateAnalytics (sq : ℚ → ℚ) (g : Graph) : GraphAnalytics :=
  let adj := buildAdjacencyList g
  let degrees := calculateDegrees g adj
  { nodeCount := g.nodes.length
    linkCount := g.links.length
    density := calculateDensity g
    averageDegree := calculateAverageDegree degrees
    maxDegree := jsMaxDegree degrees
    minDegree := jsMinDegree degrees
    clustering := calculateClusteringCoefficient g adj
    centralityMeasures :=
      { betweenness := calculateBetweennessCentrality g adj
        closeness := calculateClosenessCentrality g adj
        degree := degrees
        eigenvector := calculateEigenvectorCentrality sq g adj }
    communities := detectCommunities g adj
    diameter := calculateDiameter g adj
    averagePathLength := calculateAveragePathLength g adj }

/-- Referential integrity of a `Graph` (invariant 1 of the data model,
established for builder outputs by the C2 theorem): every link endpoint
is the id of some node. -/
def LinkClosed (g : Graph) : Prop :=
  ∀ l ∈ g.links, l.source ∈ g.nodes.map (·.id) ∧
    l.target ∈ g.nodes.map (·.id)

instance : DecidablePred LinkClosed := fun g =>
  inferInstanceAs (Decidable (∀ l ∈ g.links, _ ∧ _))

/-- Every binding of the builder's node map stores a node whose `id`
field equals its key, and the keys are pairwise distinct. -/
def NodeMapOK (m : List (String × GraphNode)) : Prop :=
  (m.map (·.1)).Nodup ∧ ∀ p ∈ m, p.2.id = p.1

/-!
## Concrete instances used by the claim theorems
-/

/-- The empty graph `{nodes: [], links: []}`. -/
def theEmptyGraph : Graph := ⟨[], []⟩

/-- The linear path graph A-B-C (links A-B and B-C only). -/
def pathGraph : Graph :=
  ⟨[⟨"A", "T"⟩, ⟨"B", "T"⟩, ⟨"C", "T"⟩],
   [⟨"A", "B", "r", 1⟩, ⟨"B", "C", "r", 1⟩]⟩

/-- A one-node graph whose only link is a self-loop. -/
def selfLoopGraph : Graph := ⟨[⟨"A", "T"⟩], [⟨"A", "A", "p", 1⟩]⟩

/-- Three nodes `a`, `b`, `c` with links `a-c`, `b-b` and `b-c`: during
the first label-propagation pass the tallies at `c` tie, exhibiting the
tie-breaking relabel of claim C5. -/
def commTieGraph : Graph :=
  ⟨[⟨"a", "T"⟩, ⟨"b", "T"⟩, ⟨"c", "T"⟩],
   [⟨"a", "c", "r", 1⟩, ⟨"b", "b", "r", 1⟩, ⟨"b", "c", "r", 1⟩]⟩

/-- Two entities with distinct ids `a.b` and `a_b` carrying the same
string value under the same relation: their sanitized leaf keys
coincide. -/
def collidingLeafDoc : Json :=
  Json.arr
    [Json.obj [("@id", Json.str "a.b"), ("r", Json.str "v")],
     Json.obj [("@id", Json.str "a_b"), ("r", Json.str "v")]]

/-!
## Evaluation lemmas for the concrete instances
-/

/-- Power iteration over an empty node list returns the empty score map
in its first round, for any square-root function. -/
lemma eigenLoop_nil (sq : ℚ → ℚ) (adj : List (String × List String))
    (fuel : ℕ) : eigenLoop sq adj [] (fuel + 1) [] = [] := by
  simp [eigenLoop]

/-- Betweenness on the path graph: `B` carries both directed shortest
paths between `A` and `C`, and the `n = 3` normalization factor is `1`. -/
lemma pathGraph_betweenness :
    calculateBetweennessCentrality pathGraph (buildAdjacencyList pathGraph) =
      [("A", 0), ("B", 2), ("C", 0)] := by
  simp [calculateBetweennessCentrality, buildAdjacencyList, engineNodeIds,
    pathGraph, brandesLoop, brandesBack, engineNodeIdsOf, engineFuel, adjOf,
    jsSet, jsLookup, addNeighbor, lookupD, List.foldl, List.map]
  norm_num

/-- Closeness on the path graph: `B` reaches both other nodes at
distance 1, the endpoints reach them at distances 1 and 2. -/
lemma pathGraph_closeness :
    calculateClosenessCentrality pathGraph (buildAdjacencyList pathGraph) =
      [("A", 2/3), ("B", 1), ("C", 2/3)] := by
  simp [calculateClosenessCentrality, buildAdjacencyList, engineNodeIds,
    pathGraph, bfs, bfsAux, engineFuel, adjOf, jsSet, jsLookup, addNeighbor,
    lookupD, List.foldl, List.filter, List.map]

/-!
## Claim theorems
-/

/-- **C1, counterexample.**  The claim states that a link whose source
equals its target contributes no neighbor to that node.  In the code,
`buildAdjacencyList` adds each link's target to its source's neighbor
set unconditionally, so on the one-node graph with the self-loop link
`A → A` the node `A` becomes its own neighbor. -/
theorem C1_counterexample :
    "A" ∈ adjOf (buildAdjacencyList selfLoopGraph) "A" ∧
    adjOf (buildAdjacencyList selfLoopGraph) "A" = ["A"] := by
  decide

/-- **C3, counterexample.**  The claim states that for null or empty
input the returned graph is empty.  The builder returns the empty graph
for `null` and for the empty array, but an empty *object* is flattened
to one entity and materializes a synthesized `"Unknown"`-typed node, so
`build {}` is not the empty graph. -/
theorem C3_counterexample : (build (Json.obj [])).nodes ≠ [] := by
  decide

/-- **C3, amended.**  The builder is total (inherent to the embedding:
`build` is a Lean function on all of `Json`), and null, `false`, `0`,
the empty string and the empty array yield the empty graph, as does any
non-object primitive; the empty object instead yields exactly one
synthesized `"Unknown"`-typed node and no links. -/
theorem C3_amended :
    (∀ doc : Json, ∃ g : Graph, build doc = g) ∧
    build Json.null = ⟨[], []⟩ ∧
    build (Json.b false) = ⟨[], []⟩ ∧
    build (Json.num 0) = ⟨[], []⟩ ∧
    build (Json.str "") = ⟨[], []⟩ ∧
    build (Json.arr []) = ⟨[], []⟩ ∧
    build (Json.b true) = ⟨[], []⟩ ∧
    build (Json.num 5) = ⟨[], []⟩ ∧
    build (Json.str "hello") = ⟨[], []⟩ ∧
    (build (Json.obj [])).nodes = [⟨"node_0", "Unknown"⟩] ∧
    (build (Json.obj [])).links = [] := by
  refine ⟨fun doc => ⟨build doc, rfl⟩, ?_, ?_, ?_, ?_, ?_, ?_, ?_, ?_, ?_, ?_⟩
  all_goals decide

/-- **C4.**  Analytics of the empty graph: density, average degree,
clustering, diameter and average path length are `0` and all centrality
and community maps are empty, as the claim states; but the degree
extrema come from `Math.max(...)/Math.min(...)` over an empty spread,
which yield `-Infinity` (here `⊥`) and `Infinity` (here `⊤`) rather
than the `0` required by the claim's `N = 0` rule. -/
theorem C4_empty_graph_analytics (sq : ℚ → ℚ) :
    (calculateAnalytics sq theEmptyGraph).density = 0 ∧
    (calculateAnalytics sq theEmptyGraph).averageDegree = 0 ∧
    (calculateAnalytics sq theEmptyGraph).clustering = 0 ∧
    (calculateAnalytics sq theEmptyGraph).diameter = 0 ∧
    (calculateAnalytics sq theEmptyGraph).averagePathLength = 0 ∧
    (calculateAnalytics sq theEmptyGraph).centralityMeasures.betweenness = [] ∧
    (calculateAnalytics sq theEmptyGraph).centralityMeasures.closeness = [] ∧
    (calculateAnalytics sq theEmptyGraph).centralityMeasures.degree = [] ∧
    (calculateAnalytics sq theEmptyGraph).centralityMeasures.eigenvector = [] ∧
    (calculateAnalytics sq theEmptyGraph).communities = [] ∧
    (calculateAnalytics sq theEmptyGraph).maxDegree = ⊥ ∧
    (calculateAnalytics sq theEmptyGraph).minDegree = ⊤ := by
  refine ⟨rfl, rfl, rfl, rfl, rfl, rfl, rfl, rfl, ?_, rfl, rfl, rfl⟩
  show eigenLoop sq (buildAdjacencyList theEmptyGraph) [] (99 + 1) [] = []
  exact eigenLoop_nil ..

/-- **C9.**  On the path graph A-B-C the analytics report has diameter
2, `betweenness(B) > betweenness(A) = betweenness(C)` and
`closeness(B) > closeness(A)`. -/
theorem C9_path_graph_metrics (sq : ℚ → ℚ) :
    (calculateAnalytics sq pathGraph).diameter = 2 ∧
    lookupD (calculateAnalytics sq pathGraph).centralityMeasures.betweenness "B" 0 >
      lookupD (calculateAnalytics sq pathGraph).centralityMeasures.betweenness "A" 0 ∧
    lookupD (calculateAnalytics sq pathGraph).centralityMeasures.betweenness "A" 0 =
      lookupD (calculateAnalytics sq pathGraph).centralityMeasures.betweenness "C" 0 ∧
    lookupD (calculateAnalytics sq pathGraph).centralityMeasures.closeness "B" 0 >
      lookupD (calculateAnalytics sq pathGraph).centralityMeasures.closeness "A" 0 := by
  have hb : (calculateAnalytics sq pathGraph).centralityMeasures.betweenness =
      [("A", 0), ("B", 2), ("C", 0)] := pathGraph_betweenness
  have hc : (calculateAnalytics sq pathGraph).centralityMeasures.closeness =
      [("A", 2/3), ("B", 1), ("C", 2/3)] := pathGraph_closeness
  refine ⟨rfl, ?_, ?_, ?_⟩
  · rw [hb]; simp [lookupD, jsLookup]
  · rw [hb]; simp [lookupD, jsLookup]
  · rw [hc]; simp [lookupD, jsLookup]; norm_num

/-- **C5, counterexample.**  The claim states a node is relabeled only
to a community whose tallied count is strictly greater than the count
of the node's current community.  On `commTieGraph` the first pass
(visiting `a`, `b`, `c` in order) reaches node `c` in the state
`a ↦ 2, b ↦ 1, c ↦ 2`; community 1 and the current community 2 then
both tally `1` among `c`'s neighbors, yet `c` is relabeled to 1: the
reduce in the source starts from score `0` (not from the current
community's tally), so at a tie the smaller community id scanned first
wins over the current community. -/
theorem C5_counterexample :
    commStep (buildAdjacencyList commTieGraph)
        (commStep (buildAdjacencyList commTieGraph)
          (commInit (engineNodeIds commTieGraph)) "a") "b" =
      [("a", 2), ("b", 1), ("c", 2)] ∧
    commPass (buildAdjacencyList commTieGraph) (engineNodeIds commTieGraph)
        (commInit (engineNodeIds commTieGraph)) =
      [("a", 2), ("b", 1), ("c", 1)] ∧
    ((adjOf (buildAdjacencyList commTieGraph) "c").map
        (fun nb => lookupD [("a", 2), ("b", 1), ("c", 2)] nb 0)).count 1 = 1 ∧
    ((adjOf (buildAdjacencyList commTieGraph) "c").map
        (fun nb => lookupD [("a", 2), ("b", 1), ("c", 2)] nb 0)).count 2 = 1 := by
  refine ⟨by decide, by decide, by decide, by decide⟩

/-- **C7, counterexample.**  The claim states that a `Value` leaf is
keyed by the triple `(sourceId, relation, value)` so that identical
literals reached from different sources remain distinct nodes.  The
key is actually the *sanitized* string `sourceId_relation_value`, and
sanitization collapses distinct triples: the two sources `a.b` and
`a_b` with the same relation and value map to the single leaf key
`a_b_r_v`, so the build of `collidingLeafDoc` holds one shared `Value`
node targeted by both links instead of two distinct nodes. -/
theorem C7_counterexample :
    (build collidingLeafDoc).nodes.countP (fun n => n.type = "Value") = 1 ∧
    (build collidingLeafDoc).links.map (·.target) = ["a_b_r_v", "a_b_r_v"] ∧
    (build collidingLeafDoc).nodes.map (·.id) = ["a.b", "a_b_r_v", "a_b"] := by
  refine ⟨by decide, by decide, by decide⟩


/-!
## Association-map infrastructure lemmas
-/

lemma jsLookup_jsSet_self {α : Type} (m : List (String × α)) (k : String)
    (v : α) : jsLookup (jsSet m k v) k = some v := by
  induction m with
  | nil => simp [jsSet, jsLookup]
  | cons hd tl ih =>
      obtain ⟨k', v'⟩ := hd
      by_cases h : k' = k
      · simp [jsSet, h, jsLookup]
      · simp [jsSet, h, jsLookup, ih]

lemma jsLookup_jsSet_ne {α : Type} (m : List (String × α)) (k k' : String)
    (v : α) (h : k' ≠ k) : jsLookup (jsSet m k v) k' = jsLookup m k' := by
  have hne : k ≠ k' := fun hh => h hh.symm
  induction m with
  | nil => simp [jsSet, jsLookup, hne]
  | cons hd tl ih =>
      obtain ⟨k'', v''⟩ := hd
      by_cases hk : k'' = k
      · subst hk
        simp [jsSet, jsLookup, hne]
      · simp [jsSet, hk, jsLookup, ih]

lemma hasKey_jsSet {α : Type} (m : List (String × α)) (k k' : String)
    (v : α) : hasKey (jsSet m k v) k' = (k' = k || hasKey m k') := by
  by_cases h : k' = k
  · subst h
    simp [hasKey, jsLookup_jsSet_self]
  · simp [hasKey, jsLookup_jsSet_ne m k k' v h, h]

lemma keys_jsSet_of_hasKey {α : Type} (m : List (String × α)) (k : String)
    (v : α) (h : hasKey m k = true) :
    (jsSet m k v).map (·.1) = m.map (·.1) := by
  induction m with
  | nil => simp [hasKey, jsLookup] at h
  | cons hd tl ih =>
      obtain ⟨k', v'⟩ := hd
      by_cases hk : k' = k
      · simp [jsSet, hk]
      · simp [hasKey, jsLookup, hk] at h
        simp [jsSet, hk, ih h]

lemma keys_jsSet_of_not_hasKey {α : Type} (m : List (String × α))
    (k : String) (v : α) (h : hasKey m k = false) :
    (jsSet m k v).map (·.1) = m.map (·.1) ++ [k] := by
  induction m with
  | nil => simp [jsSet]
  | cons hd tl ih =>
      obtain ⟨k', v'⟩ := hd
      by_cases hk : k' = k
      · simp [hasKey, jsLookup, hk] at h
      · simp [hasKey, jsLookup, hk] at h
        simp [jsSet, hk, ih (by simp [hasKey, h])]

lemma jsLookup_eq_none_iff {α : Type} (m : List (String × α))
    (k : String) : jsLookup m k = none ↔ k ∉ m.map (·.1) := by
  induction m with
  | nil => simp [jsLookup]
  | cons hd tl ih =>
      obtain ⟨k', v'⟩ := hd
      by_cases hk : k' = k
      · subst hk
        simp [jsLookup]
      · have hne : ¬ k = k' := fun hh => hk hh.symm
        simp [jsLookup, hk, ih, hne]

lemma keys_nodup_jsSet {α : Type} (m : List (String × α)) (k : String)
    (v : α) (h : (m.map (·.1)).Nodup) :
    ((jsSet m k v).map (·.1)).Nodup := by
  by_cases hk : hasKey m k
  · rw [keys_jsSet_of_hasKey m k v hk]
    exact h
  · have hk' : hasKey m k = false := by simpa using hk
    rw [keys_jsSet_of_not_hasKey m k v hk']
    have hnm : k ∉ m.map (·.1) := by
      rw [← jsLookup_eq_none_iff]
      cases hjs : jsLookup m k with
      | none => rfl
      | some v' => simp [hasKey, hjs] at hk'
    simp [List.nodup_append, h, hnm]
lemma mem_jsSet {α : Type} {m : List (String × α)} {k : String} {v : α}
    {p : String × α} (h : p ∈ jsSet m k v) : p = (k, v) ∨ p ∈ m := by
  induction m with
  | nil => simpa [jsSet] using h
  | cons hd tl ih =>
      obtain ⟨k', v'⟩ := hd
      by_cases hk : k' = k
      · simp [jsSet, hk] at h
        rcases h with h | h
        · exact Or.inl (by simp [h])
        · exact Or.inr (by simp [h])
      · simp [jsSet, hk] at h
        rcases h with h | h
        · exact Or.inr (by simp [h])
        · rcases ih h with h' | h'
          · exact Or.inl h'
          · exact Or.inr (by simp [h'])

/-!
## Definitional unfolding lemmas for the builder step

`buildGo` is structural recursion on fuel, so each branch unfolds by
`rfl`; these lemmas expose the branches to rewriting without relying on
generated equation lemmas.
-/

lemma buildGo_zero (t : BuildTask) (st : BuildState) :
    buildGo 0 t st = st := rfl

lemma buildGo_ent_arr (fuel : ℕ) (items : List Json)
    (parentId : Option String) (st : BuildState) :
    buildGo (fuel + 1) (.ent (Json.arr items) parentId) st =
      buildGo fuel (.entList items parentId) st := rfl

lemma buildGo_ent_null (fuel : ℕ) (parentId : Option String)
    (st : BuildState) :
    buildGo (fuel + 1) (.ent Json.null parentId) st = st := rfl

lemma buildGo_ent_bool (fuel : ℕ) (bv : Bool) (parentId : Option String)
    (st : BuildState) :
    buildGo (fuel + 1) (.ent (Json.b bv) parentId) st = st := rfl

lemma buildGo_ent_num (fuel : ℕ) (q : ℚ) (parentId : Option String)
    (st : BuildState) :
    buildGo (fuel + 1) (.ent (Json.num q) parentId) st = st := rfl

lemma buildGo_ent_str (fuel : ℕ) (s : String) (parentId : Option String)
    (st : BuildState) :
    buildGo (fuel + 1) (.ent (Json.str s) parentId) st = st := rfl

lemma buildGo_ent_obj (fuel : ℕ) (kvs : List (String × Json))
    (parentId : Option String) (st : BuildState) :
    buildGo (fuel + 1) (.ent (Json.obj kvs) parentId) st =
      buildGo fuel (.rels kvs (resolveId kvs st).1)
        (registerEntity (resolveId kvs st).1 (typeLookup (Json.obj kvs))
          parentId (resolveId kvs st).2) := rfl

lemma buildGo_entList_nil (fuel : ℕ) (parentId : Option String)
    (st : BuildState) :
    buildGo (fuel + 1) (.entList [] parentId) st = st := rfl

lemma buildGo_entList_cons (fuel : ℕ) (i : Json) (rest : List Json)
    (parentId : Option String) (st : BuildState) :
    buildGo (fuel + 1) (.entList (i :: rest) parentId) st =
      buildGo fuel (.entList rest parentId)
        (buildGo fuel (.ent i parentId) st) := rfl

lemma buildGo_rels_nil (fuel : ℕ) (sourceId : String) (st : BuildState) :
    buildGo (fuel + 1) (.rels [] sourceId) st = st := rfl

lemma buildGo_rels_cons (fuel : ℕ) (k : String) (v : Json)
    (rest : List (String × Json)) (sourceId : String) (st : BuildState) :
    buildGo (fuel + 1) (.rels ((k, v) :: rest) sourceId) st =
      buildGo fuel (.rels rest sourceId)
        (if jsStartsWith k "@" then st
         else
           match v with
           | Json.arr elems => buildGo fuel (.relValList sourceId k elems) st
           | w => buildGo fuel (.relVal sourceId k w) st) := rfl

lemma buildGo_relValList_nil (fuel : ℕ) (sourceId k : String)
    (st : BuildState) :
    buildGo (fuel + 1) (.relValList sourceId k []) st = st := rfl

lemma buildGo_relValList_cons (fuel : ℕ) (sourceId k : String) (e : Json)
    (rest : List Json) (st : BuildState) :
    buildGo (fuel + 1) (.relValList sourceId k (e :: rest)) st =
      buildGo fuel (.relValList sourceId k rest)
        (buildGo fuel (.relVal sourceId k e) st) := rfl

lemma buildGo_relVal_null (fuel : ℕ) (sourceId relationshipType : String)
    (st : BuildState) :
    buildGo (fuel + 1) (.relVal sourceId relationshipType Json.null) st =
      st := rfl

lemma buildGo_relVal_bool (fuel : ℕ) (sourceId relationshipType : String)
    (bv : Bool) (st : BuildState) :
    buildGo (fuel + 1) (.relVal sourceId relationshipType (Json.b bv)) st =
      addLeafAndLink st sourceId relationshipType
        (sourceId ++ "_" ++ relationshipType ++ "_" ++ jsToString (Json.b bv))
        "Boolean" (1/5) := rfl

lemma buildGo_relVal_num (fuel : ℕ) (sourceId relationshipType : String)
    (q : ℚ) (st : BuildState) :
    buildGo (fuel + 1) (.relVal sourceId relationshipType (Json.num q)) st =
      addLeafAndLink st sourceId relationshipType
        (sourceId ++ "_" ++ relationshipType ++ "_" ++ jsToString (Json.num q))
        "Number" (1/5) := rfl

lemma buildGo_relVal_str (fuel : ℕ) (sourceId relationshipType s : String)
    (st : BuildState) :
    buildGo (fuel + 1) (.relVal sourceId relationshipType (Json.str s)) st =
      (if isUrlString s then
        addLeafAndLink st sourceId relationshipType s "Reference" (1/2)
      else if jsTrim s ≠ "" ∧ ¬ jsStartsWith relationshipType "@" then
        addLeafAndLink st sourceId relationshipType
          (sanitizeId (sourceId ++ "_" ++ relationshipType ++ "_" ++ s))
          "Value" (3/10)
      else st) := rfl

lemma buildGo_relVal_objlike (fuel : ℕ) (sourceId relationshipType : String)
    (value : Json) (st : BuildState) (h : isObjectLike value = true) :
    buildGo (fuel + 1) (.relVal sourceId relationshipType value) st =
      (match idLookup value with
       | some targetId =>
          let st' : BuildState := { st with
            links := st.links ++ [⟨sourceId, targetId, relationshipType, 1⟩] }
          if ¬ hasKey st'.nodeMap targetId then
            buildGo fuel (.ent value none) st'
          else st'
       | none =>
          if keysCount value > 0 then
            buildGo fuel (.ent value (some sourceId)) st
          else st) := by
  cases value <;> first | rfl | simp [isObjectLike] at h

/-!
## Builder invariants: id uniqueness (C8)
-/

lemma nodeMapOK_jsSet {m : List (String × GraphNode)} (k ty : String)
    (h : NodeMapOK m) : NodeMapOK (jsSet m k ⟨k, ty⟩) := by
  refine ⟨keys_nodup_jsSet _ _ _ h.1, ?_⟩
  intro p hp
  rcases mem_jsSet hp with h' | h'
  · simp [h']
  · exact h.2 p h'

lemma resolveId_nodeMap (kvs : List (String × Json)) (st : BuildState) :
    (resolveId kvs st).2.nodeMap = st.nodeMap := by
  unfold resolveId
  cases idLookup (Json.obj kvs) <;> rfl

lemma registerEntity_nodeMap (id ty : String) (parentId : Option String)
    (st : BuildState) :
    (registerEntity id ty parentId st).nodeMap = jsSet st.nodeMap id ⟨id, ty⟩ := by
  unfold registerEntity
  cases parentId <;> rfl

lemma registerEntity_links (id ty : String) (parentId : Option String)
    (st : BuildState) :
    (registerEntity id ty parentId st).links = st.links ++
      (match parentId with
       | some p => [⟨p, id, "contains", 1⟩]
       | none => []) := by
  unfold registerEntity
  cases parentId <;> simp

lemma addLeafAndLink_nodeMap (st : BuildState)
    (sourceId relationshipType leafId ty : String) (w : ℚ) :
    (addLeafAndLink st sourceId relationshipType leafId ty w).nodeMap =
      if hasKey st.nodeMap leafId then st.nodeMap
      else jsSet st.nodeMap leafId ⟨leafId, ty⟩ := by
  unfold addLeafAndLink
  by_cases hk : hasKey st.nodeMap leafId <;> simp [hk]

lemma addLeafAndLink_links (st : BuildState)
    (sourceId relationshipType leafId ty : String) (w : ℚ) :
    (addLeafAndLink st sourceId relationshipType leafId ty w).links =
      st.links ++ [⟨sourceId, leafId, relationshipType, w⟩] := by
  unfold addLeafAndLink
  by_cases hk : hasKey st.nodeMap leafId <;> simp [hk]

lemma nodeMapOK_addLeafAndLink {st : BuildState}
    (sourceId relationshipType leafId ty : String) (w : ℚ)
    (h : NodeMapOK st.nodeMap) :
    NodeMapOK (addLeafAndLink st sourceId relationshipType leafId ty w).nodeMap := by
  rw [addLeafAndLink_nodeMap]
  split
  · exact h
  · exact nodeMapOK_jsSet _ _ h

/-- Every node-map write of the builder binds a key to a node carrying
that key as its id, and `Map.set` keeps keys unique, so `NodeMapOK` is
preserved by every builder step (for any fuel). -/
lemma nodeMapOK_buildGo (fuel : ℕ) (t : BuildTask) (st : BuildState)
    (h : NodeMapOK st.nodeMap) : NodeMapOK (buildGo fuel t st).nodeMap := by
  induction fuel generalizing t st with
  | zero => simpa [buildGo_zero] using h
  | succ fuel ih =>
      cases t with
      | ent entity parentId =>
          cases entity with
          | arr items => rw [buildGo_ent_arr]; exact ih _ _ h
          | null => rw [buildGo_ent_null]; exact h
          | b bv => rw [buildGo_ent_bool]; exact h
          | num q => rw [buildGo_ent_num]; exact h
          | str s => rw [buildGo_ent_str]; exact h
          | obj kvs =>
              rw [buildGo_ent_obj]
              refine ih _ _ ?_
              rw [registerEntity_nodeMap, resolveId_nodeMap]
              exact nodeMapOK_jsSet _ _ h
      | entList items parentId =>
          cases items with
          | nil => rw [buildGo_entList_nil]; exact h
          | cons i rest =>
              rw [buildGo_entList_cons]
              exact ih _ _ (ih _ _ h)
      | rels kvs sourceId =>
          cases kvs with
          | nil => rw [buildGo_rels_nil]; exact h
          | cons kv rest =>
              obtain ⟨k, v⟩ := kv
              rw [buildGo_rels_cons]
              refine ih _ _ ?_
              split
              · exact h
              · split
                all_goals exact ih _ _ h
      | relVal sourceId relationshipType value =>
          cases value with
          | null => rw [buildGo_relVal_null]; exact h
          | b bv =>
              rw [buildGo_relVal_bool]
              exact nodeMapOK_addLeafAndLink _ _ _ _ _ h
          | num q =>
              rw [buildGo_relVal_num]
              exact nodeMapOK_addLeafAndLink _ _ _ _ _ h
          | str s =>
              rw [buildGo_relVal_str]
              split
              · exact nodeMapOK_addLeafAndLink _ _ _ _ _ h
              · split
                · exact nodeMapOK_addLeafAndLink _ _ _ _ _ h
                · exact h
          | arr elems =>
              rw [buildGo_relVal_objlike _ _ _ _ _ (by rfl)]
              simp only [idLookup, truthyGet, objGet]
              split
              · exact ih _ _ h
              · exact h
          | obj kvs =>
              rw [buildGo_relVal_objlike _ _ _ _ _ (by rfl)]
              cases hid : idLookup (Json.obj kvs) with
              | some targetId =>
                  simp only
                  split
                  · exact ih _ _ h
                  · exact h
              | none =>
                  simp only
                  split
                  · exact ih _ _ h
                  · exact h
      | relValList sourceId k elems =>
          cases elems with
          | nil => rw [buildGo_relValList_nil]; exact h
          | cons e rest =>
              rw [buildGo_relValList_cons]
              exact ih _ _ (ih _ _ h)

/-- Projecting node ids out of a coherent node map gives its keys. -/
lemma map_id_of_coherent (m : List (String × GraphNode))
    (hm : ∀ p ∈ m, p.2.id = p.1) :
    (m.map (·.2)).map (·.id) = m.map (·.1) := by
  induction m with
  | nil => rfl
  | cons p rest ih =>
      simp only [List.map_cons, List.cons.injEq]
      constructor
      · exact hm p (by simp)
      · exact ih fun q hq => hm q (by simp [hq])

/-- **C8.**  Node-id uniqueness: for every input document, no two
distinct nodes of the built graph share an id — the node map is keyed
by id, re-encountering an id overwrites the existing map entry in
place (`Map.set`) rather than creating a second one, so exactly one
node per id remains in the final graph. -/
theorem C8_node_id_uniqueness (doc : Json) :
    ((build doc).nodes.map (·.id)).Nodup := by
  have key : ∀ (ents : List Json) (st : BuildState), NodeMapOK st.nodeMap →
      NodeMapOK (ents.foldl
        (fun st e => buildGo (3 * jsonSize e + 10) (.ent e none) st)
        st).nodeMap := by
    intro ents
    induction ents with
    | nil => intro st h; exact h
    | cons e rest ih =>
        intro st h
        exact ih _ (nodeMapOK_buildGo _ _ _ h)
  obtain ⟨hnodup, hco⟩ :=
    key (flattenData doc) ⟨[], [], 0⟩ ⟨by simp, by simp⟩
  show ((((flattenData doc).foldl
      (fun st e => buildGo (3 * jsonSize e + 10) (.ent e none) st)
      ⟨[], [], 0⟩).nodeMap.map (·.2)).map (·.id)).Nodup
  rw [map_id_of_coherent _ hco]
  exact hnodup

/-!
## Builder invariants: referential integrity (C2)
-/

lemma jsonSize_pos (j : Json) : 1 ≤ jsonSize j := by
  cases j <;> simp [jsonSize]

lemma hasKey_registerEntity_self (id ty : String) (parentId : Option String)
    (st : BuildState) :
    hasKey (registerEntity id ty parentId st).nodeMap id = true := by
  rw [registerEntity_nodeMap, hasKey_jsSet]
  simp

lemma hasKey_registerEntity_mono (id ty : String) (parentId : Option String)
    (st : BuildState) (k : String) (h : hasKey st.nodeMap k = true) :
    hasKey (registerEntity id ty parentId st).nodeMap k = true := by
  rw [registerEntity_nodeMap, hasKey_jsSet]
  simp [h]

lemma hasKey_addLeafAndLink_mono (st : BuildState)
    (sourceId relationshipType leafId ty : String) (w : ℚ) (k : String)
    (h : hasKey st.nodeMap k = true) :
    hasKey (addLeafAndLink st sourceId relationshipType leafId ty w).nodeMap
      k = true := by
  rw [addLeafAndLink_nodeMap]
  split
  · exact h
  · rw [hasKey_jsSet]
    simp [h]

lemma hasKey_addLeafAndLink_self (st : BuildState)
    (sourceId relationshipType leafId ty : String) (w : ℚ) :
    hasKey (addLeafAndLink st sourceId relationshipType leafId ty w).nodeMap
      leafId = true := by
  rw [addLeafAndLink_nodeMap]
  split
  · assumption
  · rw [hasKey_jsSet]
    simp

/-- The builder never removes a node-map key (for any fuel). -/
lemma hasKey_buildGo_mono (fuel : ℕ) (t : BuildTask) (st : BuildState)
    (k : String) (h : hasKey st.nodeMap k = true) :
    hasKey (buildGo fuel t st).nodeMap k = true := by
  induction fuel generalizing t st with
  | zero => simpa [buildGo_zero] using h
  | succ fuel ih =>
      cases t with
      | ent entity parentId =>
          cases entity with
          | arr items => rw [buildGo_ent_arr]; exact ih _ _ h
          | null => rw [buildGo_ent_null]; exact h
          | b bv => rw [buildGo_ent_bool]; exact h
          | num q => rw [buildGo_ent_num]; exact h
          | str s => rw [buildGo_ent_str]; exact h
          | obj kvs =>
              rw [buildGo_ent_obj]
              refine ih _ _ ?_
              refine hasKey_registerEntity_mono _ _ _ _ _ ?_
              rw [resolveId_nodeMap]
              exact h
      | entList items parentId =>
          cases items with
          | nil => rw [buildGo_entList_nil]; exact h
          | cons i rest =>
              rw [buildGo_entList_cons]
              exact ih _ _ (ih _ _ h)
      | rels kvs sourceId =>
          cases kvs with
          | nil => rw [buildGo_rels_nil]; exact h
          | cons kv rest =>
              obtain ⟨k', v⟩ := kv
              rw [buildGo_rels_cons]
              refine ih _ _ ?_
              split
              · exact h
              · split
                all_goals exact ih _ _ h
      | relVal sourceId relationshipType value =>
          cases value with
          | null => rw [buildGo_relVal_null]; exact h
          | b bv =>
              rw [buildGo_relVal_bool]
              exact hasKey_addLeafAndLink_mono _ _ _ _ _ _ _ h
          | num q =>
              rw [buildGo_relVal_num]
              exact hasKey_addLeafAndLink_mono _ _ _ _ _ _ _ h
          | str s =>
              rw [buildGo_relVal_str]
              split
              · exact hasKey_addLeafAndLink_mono _ _ _ _ _ _ _ h
              · split
                · exact hasKey_addLeafAndLink_mono _ _ _ _ _ _ _ h
                · exact h
          | arr elems =>
              rw [buildGo_relVal_objlike _ _ _ _ _ (by rfl)]
              simp only [idLookup, truthyGet, objGet]
              split
              · exact ih _ _ h
              · exact h
          | obj kvs =>
              rw [buildGo_relVal_objlike _ _ _ _ _ (by rfl)]
              cases hid : idLookup (Json.obj kvs) with
              | some targetId =>
                  simp only
                  split
                  · exact ih _ _ h
                  · exact h
              | none =>
                  simp only
                  split
                  · exact ih _ _ h
                  · exact h
      | relValList sourceId k' elems =>
          cases elems with
          | nil => rw [buildGo_relValList_nil]; exact h
          | cons e rest =>
              rw [buildGo_relValList_cons]
              exact ih _ _ (ih _ _ h)

/-- Processing an entity object registers its resolved id (as soon as
at least one unit of fuel is available). -/
lemma hasKey_buildGo_ent_obj (fuel : ℕ) (kvs : List (String × Json))
    (parentId : Option String) (st : BuildState) :
    hasKey (buildGo (fuel + 1) (.ent (Json.obj kvs) parentId) st).nodeMap
      (resolveId kvs st).1 = true := by
  rw [buildGo_ent_obj]
  exact hasKey_buildGo_mono _ _ _ _ (hasKey_registerEntity_self _ _ _ _)

lemma resolveId_of_idLookup {kvs : List (String × Json)} {tid : String}
    (st : BuildState) (h : idLookup (Json.obj kvs) = some tid) :
    resolveId kvs st = (tid, st) := by
  unfold resolveId
  rw [h]

lemma resolveId_links (kvs : List (String × Json)) (st : BuildState) :
    (resolveId kvs st).2.links = st.links := by
  unfold resolveId
  cases idLookup (Json.obj kvs) <;> rfl

/-- Core invariant for referential integrity: with enough fuel for the
task and the caller's id already registered, every link present after a
builder step either predates the step or has both endpoints in the
resulting node map.  (A reference link to a not-yet-seen `@id` is
pushed *before* the target entity is processed, but `processEntity`
registers the target's node immediately, so the link resolves once the
step completes.) -/
lemma buildGo_links_resolved (fuel : ℕ) (t : BuildTask) (st : BuildState)
    (hfuel : taskNeed t < fuel) (hpre : taskPre t st) :
    ∀ l ∈ (buildGo fuel t st).links, l ∈ st.links ∨
      (hasKey (buildGo fuel t st).nodeMap l.source = true ∧
       hasKey (buildGo fuel t st).nodeMap l.target = true) := by
  induction fuel generalizing t st with
  | zero => exact absurd hfuel (by omega)
  | succ fuel ih =>
      cases t with
      | ent entity parentId =>
          cases entity with
          | null => rw [buildGo_ent_null]; exact fun l hl => Or.inl hl
          | b bv => rw [buildGo_ent_bool]; exact fun l hl => Or.inl hl
          | num q => rw [buildGo_ent_num]; exact fun l hl => Or.inl hl
          | str s => rw [buildGo_ent_str]; exact fun l hl => Or.inl hl
          | arr items =>
              rw [buildGo_ent_arr]
              refine ih _ _ ?_ hpre
              simp only [taskNeed, jsonSize] at hfuel ⊢
              omega
          | obj kvs =>
              rw [buildGo_ent_obj]
              have hneed : taskNeed (.rels kvs (resolveId kvs st).1) < fuel := by
                simp only [taskNeed, jsonSize] at hfuel ⊢
                omega
              have hpre' : taskPre (.rels kvs (resolveId kvs st).1)
                  (registerEntity (resolveId kvs st).1
                    (typeLookup (Json.obj kvs)) parentId (resolveId kvs st).2) :=
                hasKey_registerEntity_self _ _ _ _
              intro l hl
              rcases ih _ _ hneed hpre' l hl with hmem | hres
              · -- l was present after registration: split old links from the
                -- freshly pushed `contains` link
                rw [registerEntity_links, resolveId_links] at hmem
                rcases List.mem_append.1 hmem with hold | hnew
                · exact Or.inl hold
                · right
                  cases parentId with
                  | none => simp at hnew
                  | some p =>
                      simp at hnew
                      subst hnew
                      constructor
                      · refine hasKey_buildGo_mono _ _ _ _ ?_
                        refine hasKey_registerEntity_mono _ _ _ _ _ ?_
                        rw [resolveId_nodeMap]
                        exact hpre p rfl
                      · refine hasKey_buildGo_mono _ _ _ _ ?_
                        exact hasKey_registerEntity_self _ _ _ _
              · exact Or.inr hres
      | entList items parentId =>
          cases items with
          | nil => rw [buildGo_entList_nil]; exact fun l hl => Or.inl hl
          | cons i rest =>
              rw [buildGo_entList_cons]
              have hneed1 : taskNeed (.ent i parentId) < fuel := by
                simp only [taskNeed, jsonSizeList] at hfuel ⊢
                omega
              have hneed2 : taskNeed (.entList rest parentId) < fuel := by
                simp only [taskNeed, jsonSizeList] at hfuel ⊢
                have := jsonSize_pos i
                omega
              have hpre2 : taskPre (.entList rest parentId)
                  (buildGo fuel (.ent i parentId) st) := by
                intro p hp
                exact hasKey_buildGo_mono _ _ _ _ (hpre p hp)
              intro l hl
              rcases ih _ _ hneed2 hpre2 l hl with hmid | hres
              · rcases ih _ _ hneed1 hpre l hmid with hold | hres'
                · exact Or.inl hold
                · exact Or.inr ⟨hasKey_buildGo_mono _ _ _ _ hres'.1,
                    hasKey_buildGo_mono _ _ _ _ hres'.2⟩
              · exact Or.inr hres
      | relValList sourceId k elems =>
          cases elems with
          | nil => rw [buildGo_relValList_nil]; exact fun l hl => Or.inl hl
          | cons e rest =>
              rw [buildGo_relValList_cons]
              have hneed1 : taskNeed (.relVal sourceId k e) < fuel := by
                simp only [taskNeed, jsonSizeList] at hfuel ⊢
                omega
              have hneed2 : taskNeed (.relValList sourceId k rest) < fuel := by
                simp only [taskNeed, jsonSizeList] at hfuel ⊢
                have := jsonSize_pos e
                omega
              have hpre2 : taskPre (.relValList sourceId k rest)
                  (buildGo fuel (.relVal sourceId k e) st) :=
                hasKey_buildGo_mono _ _ _ _ hpre
              intro l hl
              rcases ih _ _ hneed2 hpre2 l hl with hmid | hres
              · rcases ih _ _ hneed1 hpre l hmid with hold | hres'
                · exact Or.inl hold
                · exact Or.inr ⟨hasKey_buildGo_mono _ _ _ _ hres'.1,
                    hasKey_buildGo_mono _ _ _ _ hres'.2⟩
              · exact Or.inr hres
      | rels kvs sourceId =>
          cases kvs with
          | nil => rw [buildGo_rels_nil]; exact fun l hl => Or.inl hl
          | cons kv rest =>
              obtain ⟨k, v⟩ := kv
              rw [buildGo_rels_cons]
              have hneed2 : taskNeed (.rels rest sourceId) < fuel := by
                simp only [taskNeed, jsonSizeKvs] at hfuel ⊢
                have := jsonSize_pos v
                omega
              -- composing through the per-key intermediate state
              have compose : ∀ (mid : BuildState),
                  (∀ l ∈ mid.links, l ∈ st.links ∨
                    (hasKey mid.nodeMap l.source = true ∧
                     hasKey mid.nodeMap l.target = true)) →
                  hasKey mid.nodeMap sourceId = true →
                  ∀ l ∈ (buildGo fuel (.rels rest sourceId) mid).links,
                    l ∈ st.links ∨
                    (hasKey (buildGo fuel (.rels rest sourceId) mid).nodeMap
                      l.source = true ∧
                     hasKey (buildGo fuel (.rels rest sourceId) mid).nodeMap
                      l.target = true) := by
                intro mid hml hmk l hl
                rcases ih _ _ hneed2 hmk l hl with hmidl | hres
                · rcases hml l hmidl with hold | hres'
                  · exact Or.inl hold
                  · exact Or.inr ⟨hasKey_buildGo_mono _ _ _ _ hres'.1,
                      hasKey_buildGo_mono _ _ _ _ hres'.2⟩
                · exact Or.inr hres
              refine compose _ ?_ ?_
              case _ =>
                split
                · exact fun l hl => Or.inl hl
                · cases v with
                  | arr elems =>
                      refine ih _ _ ?_ hpre
                      simp only [taskNeed, jsonSizeKvs, jsonSize] at hfuel ⊢
                      omega
                  | null =>
                      refine ih _ _ ?_ hpre
                      simp only [taskNeed, jsonSizeKvs, jsonSize] at hfuel ⊢
                      omega
                  | b bv =>
                      refine ih _ _ ?_ hpre
                      simp only [taskNeed, jsonSizeKvs, jsonSize] at hfuel ⊢
                      omega
                  | num q =>
                      refine ih _ _ ?_ hpre
                      simp only [taskNeed, jsonSizeKvs, jsonSize] at hfuel ⊢
                      omega
                  | str s =>
                      refine ih _ _ ?_ hpre
                      simp only [taskNeed, jsonSizeKvs, jsonSize] at hfuel ⊢
                      omega
                  | obj kvs2 =>
                      refine ih _ _ ?_ hpre
                      simp only [taskNeed, jsonSizeKvs, jsonSize] at hfuel ⊢
                      omega
              case _ =>
                split
                · exact hpre
                · cases v
                  all_goals exact hasKey_buildGo_mono _ _ _ _ hpre
      | relVal sourceId relationshipType value =>
          cases value with
          | null => rw [buildGo_relVal_null]; exact fun l hl => Or.inl hl
          | b bv =>
              rw [buildGo_relVal_bool]
              intro l hl
              rw [addLeafAndLink_links] at hl
              rcases List.mem_append.1 hl with hold | hnew
              · exact Or.inl hold
              · right
                simp at hnew
                subst hnew
                exact ⟨hasKey_addLeafAndLink_mono _ _ _ _ _ _ _ hpre,
                  hasKey_addLeafAndLink_self _ _ _ _ _ _⟩
          | num q =>
              rw [buildGo_relVal_num]
              intro l hl
              rw [addLeafAndLink_links] at hl
              rcases List.mem_append.1 hl with hold | hnew
              · exact Or.inl hold
              · right
                simp at hnew
                subst hnew
                exact ⟨hasKey_addLeafAndLink_mono _ _ _ _ _ _ _ hpre,
                  hasKey_addLeafAndLink_self _ _ _ _ _ _⟩
          | str s =>
              rw [buildGo_relVal_str]
              split
              · intro l hl
                rw [addLeafAndLink_links] at hl
                rcases List.mem_append.1 hl with hold | hnew
                · exact Or.inl hold
                · right
                  simp at hnew
                  subst hnew
                  exact ⟨hasKey_addLeafAndLink_mono _ _ _ _ _ _ _ hpre,
                    hasKey_addLeafAndLink_self _ _ _ _ _ _⟩
              · split
                · intro l hl
                  rw [addLeafAndLink_links] at hl
                  rcases List.mem_append.1 hl with hold | hnew
                  · exact Or.inl hold
                  · right
                    simp at hnew
                    subst hnew
                    exact ⟨hasKey_addLeafAndLink_mono _ _ _ _ _ _ _ hpre,
                      hasKey_addLeafAndLink_self _ _ _ _ _ _⟩
                · exact fun l hl => Or.inl hl
          | arr elems =>
              rw [buildGo_relVal_objlike _ _ _ _ _ (by rfl)]
              simp only [idLookup, truthyGet, objGet]
              split
              · refine ih _ _ ?_ ?_
                · simp only [taskNeed, jsonSize] at hfuel ⊢
                  omega
                · intro p hp
                  cases hp
                  exact hpre
              · exact fun l hl => Or.inl hl
          | obj kvs =>
              rw [buildGo_relVal_objlike _ _ _ _ _ (by rfl)]
              cases hid : idLookup (Json.obj kvs) with
              | some targetId =>
                  simp only
                  split
                  · -- target not yet registered: the recursive
                    -- processEntity call registers it at once
                    rename_i hnk
                    obtain ⟨f, rfl⟩ : ∃ f, fuel = f + 1 := by
                      refine ⟨fuel - 1, ?_⟩
                      simp only [taskNeed] at hfuel
                      have := jsonSize_pos (Json.obj kvs)
                      omega
                    intro l hl
                    have hneed : taskNeed (.ent (Json.obj kvs) none) < f + 1 := by
                      simp only [taskNeed] at hfuel ⊢
                      omega
                    rcases ih _ _ hneed (by intro p hp; cases hp) l hl with
                      hmem | hres
                    · simp only [List.mem_append] at hmem
                      rcases hmem with hold | hnew
                      · exact Or.inl hold
                      · right
                        simp at hnew
                        subst hnew
                        have htid : hasKey (buildGo (f + 1)
                            (.ent (Json.obj kvs) none)
                            { st with links := st.links ++
                              [⟨sourceId, targetId, relationshipType, 1⟩]
                            }).nodeMap targetId = true := by
                          have := hasKey_buildGo_ent_obj f kvs none
                            { st with links := st.links ++
                              [⟨sourceId, targetId, relationshipType, 1⟩] }
                          rwa [resolveId_of_idLookup _ hid] at this
                        exact ⟨hasKey_buildGo_mono _ _ _ _ hpre, htid⟩
                    · exact Or.inr hres
                  · intro l hl
                    simp only [List.mem_append] at hl
                    rcases hl with hold | hnew
                    · exact Or.inl hold
                    · right
                      simp at hnew
                      subst hnew
                      rename_i hnk
                      simp at hnk
                      exact ⟨hpre, hnk⟩
              | none =>
                  simp only
                  split
                  · refine ih _ _ ?_ ?_
                    · simp only [taskNeed, jsonSize] at hfuel ⊢
                      omega
                    · intro p hp
                      cases hp
                      exact hpre
                  · exact fun l hl => Or.inl hl

lemma jsLookup_mem {α : Type} {m : List (String × α)} {k : String} {v : α}
    (h : jsLookup m k = some v) : (k, v) ∈ m := by
  induction m with
  | nil => simp [jsLookup] at h
  | cons hd tl ih =>
      obtain ⟨k', v'⟩ := hd
      by_cases hk : k' = k
      · subst hk
        simp [jsLookup] at h
        simp [h]
      · simp [jsLookup, hk] at h
        simp [ih h]

/-- A registered key names a node of the final graph carrying that key
as its id. -/
lemma node_of_hasKey {st : BuildState} {k : String}
    (hok : NodeMapOK st.nodeMap) (h : hasKey st.nodeMap k = true) :
    ∃ n ∈ st.nodeMap.map (·.2), n.id = k := by
  simp only [hasKey, Option.isSome_iff_exists] at h
  obtain ⟨nd, hnd⟩ := h
  exact ⟨nd, List.mem_map_of_mem _ (jsLookup_mem hnd),
    hok.2 (k, nd) (jsLookup_mem hnd)⟩

/-- **C2.**  Referential integrity: for every input document, every
link of the built graph has both its source id and its target id
present as node ids of the graph. -/
theorem C2_referential_integrity (doc : Json) :
    ∀ l ∈ (build doc).links,
      (∃ n ∈ (build doc).nodes, n.id = l.source) ∧
      (∃ n ∈ (build doc).nodes, n.id = l.target) := by
  have key : ∀ (ents : List Json) (st : BuildState),
      NodeMapOK st.nodeMap →
      (∀ l ∈ st.links, hasKey st.nodeMap l.source = true ∧
        hasKey st.nodeMap l.target = true) →
      (NodeMapOK (ents.foldl
        (fun st e => buildGo (3 * jsonSize e + 10) (.ent e none) st)
        st).nodeMap ∧
       ∀ l ∈ (ents.foldl
        (fun st e => buildGo (3 * jsonSize e + 10) (.ent e none) st)
        st).links,
        hasKey (ents.foldl
          (fun st e => buildGo (3 * jsonSize e + 10) (.ent e none) st)
          st).nodeMap l.source = true ∧
        hasKey (ents.foldl
          (fun st e => buildGo (3 * jsonSize e + 10) (.ent e none) st)
          st).nodeMap l.target = true) := by
    intro ents
    induction ents with
    | nil => intro st hok hres; exact ⟨hok, hres⟩
    | cons e rest ih =>
        intro st hok hres
        refine ih _ (nodeMapOK_buildGo _ _ _ hok) ?_
        intro l hl
        rcases buildGo_links_resolved (3 * jsonSize e + 10) (.ent e none) st
          (by simp only [taskNeed]; omega) (by intro p hp; cases hp) l hl with
          hold | hnew
        · exact ⟨hasKey_buildGo_mono _ _ _ _ (hres l hold).1,
            hasKey_buildGo_mono _ _ _ _ (hres l hold).2⟩
        · exact hnew
  obtain ⟨hok, hres⟩ := key (flattenData doc) ⟨[], [], 0⟩
    ⟨by simp, by simp⟩ (by simp)
  intro l hl
  have hl' := hres l hl
  exact ⟨node_of_hasKey hok hl'.1, node_of_hasKey hok hl'.2⟩

/-- Witness for C2 at a concrete document and link: the first link of
`build collidingLeafDoc` resolves on both ends. -/
theorem C2_witness :
    (∃ n ∈ (build collidingLeafDoc).nodes, n.id = "a.b") ∧
    (∃ n ∈ (build collidingLeafDoc).nodes, n.id = "a_b_r_v") :=
  C2_referential_integrity collidingLeafDoc ⟨"a.b", "a_b_r_v", "r", 3/10⟩
    (List.Mem.head _)

/-- **C7, amended.**  The string branch of `processRelationshipValue`:
an absolute-URL string appends a weight-0.5 link to a node keyed by the
URL itself, materializing a `Reference`-kind node when the key is fresh
and leaving the node map untouched when it is not; a non-URL string
that is non-empty after trimming appends a weight-0.3 link to a node
keyed by the *sanitized* concatenation `sourceId_relation_value`
(characters outside `[a-zA-Z0-9_-]` replaced by `_`), materializing a
`Value`-kind node when that key is fresh — so distinct triples remain
distinct nodes exactly when their sanitized keys differ; a string that
trims to empty produces neither node nor link. -/
theorem C7_amended_string_leaf_rule (fuel : ℕ)
    (sourceId relationshipType s : String) (st : BuildState) :
    (isUrlString s = true →
      (buildGo (fuel + 1) (.relVal sourceId relationshipType (Json.str s))
          st).links = st.links ++ [⟨sourceId, s, relationshipType, 1/2⟩] ∧
      (hasKey st.nodeMap s = false →
        jsLookup (buildGo (fuel + 1)
          (.relVal sourceId relationshipType (Json.str s)) st).nodeMap s =
          some ⟨s, "Reference"⟩) ∧
      (hasKey st.nodeMap s = true →
        (buildGo (fuel + 1) (.relVal sourceId relationshipType (Json.str s))
          st).nodeMap = st.nodeMap)) ∧
    (isUrlString s = false → jsTrim s ≠ "" →
      jsStartsWith relationshipType "@" = false →
      (buildGo (fuel + 1) (.relVal sourceId relationshipType (Json.str s))
          st).links = st.links ++
        [⟨sourceId,
          sanitizeId (sourceId ++ "_" ++ relationshipType ++ "_" ++ s),
          relationshipType, 3/10⟩] ∧
      (hasKey st.nodeMap
          (sanitizeId (sourceId ++ "_" ++ relationshipType ++ "_" ++ s)) =
            false →
        jsLookup (buildGo (fuel + 1)
          (.relVal sourceId relationshipType (Json.str s)) st).nodeMap
          (sanitizeId (sourceId ++ "_" ++ relationshipType ++ "_" ++ s)) =
          some ⟨sanitizeId (sourceId ++ "_" ++ relationshipType ++ "_" ++ s),
            "Value"⟩) ∧
      (hasKey st.nodeMap
          (sanitizeId (sourceId ++ "_" ++ relationshipType ++ "_" ++ s)) =
            true →
        (buildGo (fuel + 1) (.relVal sourceId relationshipType (Json.str s))
          st).nodeMap = st.nodeMap)) ∧
    (isUrlString s = false → jsTrim s = "" →
      buildGo (fuel + 1) (.relVal sourceId relationshipType (Json.str s)) st
        = st) := by
  rw [buildGo_relVal_str]
  refine ⟨?_, ?_, ?_⟩
  · intro hu
    simp only [hu, if_true]
    refine ⟨addLeafAndLink_links _ _ _ _ _ _, ?_, ?_⟩
    · intro hk
      rw [addLeafAndLink_nodeMap]
      simp [hk, jsLookup_jsSet_self]
    · intro hk
      rw [addLeafAndLink_nodeMap]
      simp [hk]
  · intro hu ht hat
    simp only [hu, Bool.false_eq_true, if_false]
    rw [if_pos ⟨ht, by simp [hat]⟩]
    refine ⟨addLeafAndLink_links _ _ _ _ _ _, ?_, ?_⟩
    · intro hk
      rw [addLeafAndLink_nodeMap]
      simp [hk, jsLookup_jsSet_self]
    · intro hk
      rw [addLeafAndLink_nodeMap]
      simp [hk]
  · intro hu ht
    simp only [hu, Bool.false_eq_true, if_false]
    rw [if_neg (by simp [ht])]

/-- Witness for the amended C7 at concrete inputs: a URL-string field
and a plain-string field processed from the empty state. -/
theorem C7_amended_witness :
    ((buildGo 1 (.relVal "x" "tag" (Json.str "http://example.com/a"))
        ⟨[], [], 0⟩).links =
      [⟨"x", "http://example.com/a", "tag", 1/2⟩] ∧
     jsLookup (buildGo 1 (.relVal "x" "tag" (Json.str "http://example.com/a"))
        ⟨[], [], 0⟩).nodeMap "http://example.com/a" =
      some ⟨"http://example.com/a", "Reference"⟩) ∧
    ((buildGo 1 (.relVal "x" "note" (Json.str "hello, world"))
        ⟨[], [], 0⟩).links = [⟨"x", "x_note_hello__world", "note", 3/10⟩] ∧
     jsLookup (buildGo 1 (.relVal "x" "note" (Json.str "hello, world"))
        ⟨[], [], 0⟩).nodeMap "x_note_hello__world" =
      some ⟨"x_note_hello__world", "Value"⟩) ∧
    buildGo 1 (.relVal "x" "note" (Json.str "   ")) ⟨[], [], 0⟩ =
      ⟨[], [], 0⟩ := by
  have h1 := (C7_amended_string_leaf_rule 0 "x" "tag" "http://example.com/a"
    ⟨[], [], 0⟩).1 (by decide)
  have h2 := (C7_amended_string_leaf_rule 0 "x" "note" "hello, world"
    ⟨[], [], 0⟩).2.1 (by decide) (by decide) (by decide)
  have h3 := (C7_amended_string_leaf_rule 0 "x" "note" "   "
    ⟨[], [], 0⟩).2.2 (by decide) (by decide)
  refine ⟨⟨?_, ?_⟩, ⟨?_, ?_⟩, h3⟩
  · simpa using h1.1
  · simpa using h1.2.1 (by decide)
  · have := h2.1
    simpa [show sanitizeId ("x" ++ "_" ++ "note" ++ "_" ++ "hello, world") =
      "x_note_hello__world" by decide] using this
  · have := h2.2.1 (by decide)
    simpa [show sanitizeId ("x" ++ "_" ++ "note" ++ "_" ++ "hello, world") =
      "x_note_hello__world" by decide] using this

/-!
## Adjacency characterization (C1)
-/

lemma hasKey_addNeighbor (m : List (String × List String)) (k nb k' : String) :
    hasKey (addNeighbor m k nb) k' = hasKey m k' := by
  cases hl : jsLookup m k with
  | none => simp [addNeighbor, hl]
  | some lst =>
      simp only [addNeighbor, hl]
      split
      · rfl
      · rw [hasKey_jsSet]
        by_cases hk : k' = k
        · subst hk
          simp [hasKey, hl]
        · simp [hk]

lemma mem_adjOf_addNeighbor (m : List (String × List String))
    (k nb v u : String) :
    u ∈ adjOf (addNeighbor m k nb) v ↔
      u ∈ adjOf m v ∨ (v = k ∧ hasKey m k = true ∧ u = nb) := by
  cases hl : jsLookup m k with
  | none => simp [addNeighbor, hl, hasKey]
  | some lst =>
      simp only [addNeighbor, hl]
      by_cases hv : v = k
      · subst hv
        have hadj : adjOf m v = lst := by simp [adjOf, hl]
        split
        · rename_i hmem
          simp [hasKey, hl, hadj]
          intro hu
          subst hu
          exact hmem
        · simp [adjOf, jsLookup_jsSet_self, hasKey, hl, hadj]
      · have hne : v ≠ k := hv
        split
        · simp [hasKey, hl, hv]
        · simp [adjOf, jsLookup_jsSet_ne _ _ _ _ hne, hv]

lemma adjOf_nodup_addNeighbor (m : List (String × List String))
    (k nb : String) (h : ∀ v, (adjOf m v).Nodup) :
    ∀ v, (adjOf (addNeighbor m k nb) v).Nodup := by
  intro v
  cases hl : jsLookup m k with
  | none => simp [addNeighbor, hl]; exact h v
  | some lst =>
      simp only [addNeighbor, hl]
      split
      · exact h v
      · by_cases hv : v = k
        · subst hv
          have hadj : adjOf m v = lst := by simp [adjOf, hl]
          rename_i hmem
          simp only [adjOf, jsLookup_jsSet_self, Option.getD_some]
          rw [List.nodup_append]
          refine ⟨hadj ▸ h v, by simp, ?_⟩
          intro a ha hb
          simp at hb
          exact hmem (hb ▸ ha)
        · have hne : v ≠ k := hv
          simp only [adjOf, jsLookup_jsSet_ne _ _ _ _ hne]
          exact h v

lemma adjOf_nodeInit_nil (nodes : List GraphNode) (v : String) :
    adjOf (nodes.foldl (fun m n => jsSet m n.id []) []) v = [] := by
  have key : ∀ (ns : List GraphNode) (m : List (String × List String)),
      (∀ p ∈ m, p.2 = []) →
      ∀ p ∈ ns.foldl (fun m n => jsSet m n.id []) m, p.2 = [] := by
    intro ns
    induction ns with
    | nil => intro m hm; exact hm
    | cons n rest ih =>
        intro m hm
        refine ih _ ?_
        intro p hp
        rcases mem_jsSet hp with h' | h'
        · simp [h']
        · exact hm p h'
  have hall := key nodes [] (by simp)
  unfold adjOf
  cases hl : jsLookup (nodes.foldl (fun m n => jsSet m n.id []) []) v with
  | none => rfl
  | some lst =>
      have := hall (v, lst) (jsLookup_mem hl)
      simpa using this

lemma hasKey_nodeInit (nodes : List GraphNode) (k : String) :
    hasKey (nodes.foldl (fun m n => jsSet m n.id ([] : List String)) []) k =
      (k ∈ nodes.map (·.id)) := by
  have key : ∀ (ns : List GraphNode) (m : List (String × List String)),
      hasKey (ns.foldl (fun m n => jsSet m n.id []) m) k =
        (hasKey m k || k ∈ ns.map (·.id)) := by
    intro ns
    induction ns with
    | nil => intro m; simp
    | cons n rest ih =>
        intro m
        show hasKey (rest.foldl _ (jsSet m n.id [])) k = _
        rw [ih, hasKey_jsSet]
        simp [List.mem_cons]
        by_cases hk : k = n.id
        · simp [hk]
        · have hne : ¬ n.id = k := fun h => hk h.symm
          simp [hk, hne]
  rw [key nodes []]
  simp [hasKey, jsLookup]

/-- Folding the links over an adjacency map whose key set stays fixed:
a membership appears exactly for an endpoint pair of some processed
link whose other endpoint is a registered key. -/
lemma mem_adjOf_linksFold (ls : List GraphLink)
    (m : List (String × List String)) (v u : String) :
    u ∈ adjOf (ls.foldl (fun m l =>
        addNeighbor (addNeighbor m l.source l.target) l.target l.source) m)
      v ↔
    u ∈ adjOf m v ∨ ∃ l ∈ ls,
      (hasKey m l.source = true ∧ l.source = v ∧ l.target = u) ∨
      (hasKey m l.target = true ∧ l.target = v ∧ l.source = u) := by
  induction ls generalizing m with
  | nil => simp
  | cons l rest ih =>
      show u ∈ adjOf (rest.foldl _
        (addNeighbor (addNeighbor m l.source l.target) l.target l.source))
          v ↔ _
      rw [ih]
      simp only [mem_adjOf_addNeighbor, hasKey_addNeighbor]
      constructor
      · rintro (((hmv | ⟨hv, hk, hu⟩) | ⟨hv, hk, hu⟩) | ⟨l', hl', hcase⟩)
        · exact Or.inl hmv
        · exact Or.inr ⟨l, by simp, Or.inl ⟨hk, hv.symm, hu.symm⟩⟩
        · exact Or.inr ⟨l, by simp, Or.inr ⟨hk, hv.symm, hu.symm⟩⟩
        · exact Or.inr ⟨l', by simp [hl'], hcase⟩
      · rintro (hmv | ⟨l', hl', hcase⟩)
        · exact Or.inl (Or.inl (Or.inl hmv))
        · rcases List.mem_cons.1 hl' with rfl | hrest
          · rcases hcase with ⟨hk, hv, hu⟩ | ⟨hk, hv, hu⟩
            · exact Or.inl (Or.inl (Or.inr ⟨hv.symm, hk, hu.symm⟩))
            · exact Or.inl (Or.inr ⟨hv.symm, hk, hu.symm⟩)
          · exact Or.inr ⟨l', hrest, hcase⟩

/-- Characterization of membership in the engine's adjacency map for a
graph with referential integrity. -/
lemma mem_adjOf_buildAdjacencyList (g : Graph) (hc : LinkClosed g)
    (v u : String) :
    u ∈ adjOf (buildAdjacencyList g) v ↔
      ∃ l ∈ g.links,
        (l.source = v ∧ l.target = u) ∨ (l.target = v ∧ l.source = u) := by
  show u ∈ adjOf (g.links.foldl _
    (g.nodes.foldl (fun m n => jsSet m n.id []) [])) v ↔ _
  rw [mem_adjOf_linksFold]
  simp only [adjOf_nodeInit_nil, List.not_mem_nil, false_or]
  constructor
  · rintro ⟨l, hl, ⟨_, hv, hu⟩ | ⟨_, hv, hu⟩⟩
    · exact ⟨l, hl, Or.inl ⟨hv, hu⟩⟩
    · exact ⟨l, hl, Or.inr ⟨hv, hu⟩⟩
  · rintro ⟨l, hl, ⟨hv, hu⟩ | ⟨hv, hu⟩⟩
    · exact ⟨l, hl, Or.inl ⟨by rw [hasKey_nodeInit]; exact (hc l hl).1,
        hv, hu⟩⟩
    · exact ⟨l, hl, Or.inr ⟨by rw [hasKey_nodeInit]; exact (hc l hl).2,
        hv, hu⟩⟩

/-- Neighbor sets are duplicate-free (`Set` semantics), for any graph. -/
lemma adjOf_buildAdjacencyList_nodup (g : Graph) (v : String) :
    (adjOf (buildAdjacencyList g) v).Nodup := by
  show (adjOf (g.links.foldl _
    (g.nodes.foldl (fun m n => jsSet m n.id []) [])) v).Nodup
  have key : ∀ (ls : List GraphLink) (m : List (String × List String)),
      (∀ w, (adjOf m w).Nodup) →
      ∀ w, (adjOf (ls.foldl (fun m l =>
        addNeighbor (addNeighbor m l.source l.target) l.target l.source)
        m) w).Nodup := by
    intro ls
    induction ls with
    | nil => intro m hm; exact hm
    | cons l rest ih =>
        intro m hm
        exact ih _ (adjOf_nodup_addNeighbor _ _ _
          (adjOf_nodup_addNeighbor _ _ _ hm))
  exact key g.links _
    (fun w => by rw [adjOf_nodeInit_nil]; exact List.nodup_nil) v

/-- **C1, amended.**  For a graph satisfying referential integrity, the
adjacency map built by the engine relates `u` to `v` exactly when some
link joins `v` and `u` in either direction — multi-edges and direction
collapse (the neighbor list of every node is duplicate-free), but a
self-loop link does make its node a member of its own neighbor set. -/
theorem C1_amended_adjacency_characterization (g : Graph)
    (hc : LinkClosed g) (v u : String) :
    (u ∈ adjOf (buildAdjacencyList g) v ↔
      ∃ l ∈ g.links,
        (l.source = v ∧ l.target = u) ∨ (l.target = v ∧ l.source = u)) ∧
    (adjOf (buildAdjacencyList g) v).Nodup :=
  ⟨mem_adjOf_buildAdjacencyList g hc v u, adjOf_buildAdjacencyList_nodup g v⟩

/-- Witness for the amended C1 on the path graph: `B` is a neighbor of
`A` through the link `A-B`, and `A`'s neighbor list is duplicate-free. -/
theorem C1_amended_witness :
    (("B" ∈ adjOf (buildAdjacencyList pathGraph) "A" ↔
      ∃ l ∈ pathGraph.links,
        (l.source = "A" ∧ l.target = "B") ∨
        (l.target = "A" ∧ l.source = "B")) ∧
     (adjOf (buildAdjacencyList pathGraph) "A").Nodup) :=
  C1_amended_adjacency_characterization pathGraph (by decide) "A" "B"

/-!
## The label-propagation relabel rule (C5) and termination (C6)
-/

/-- Specification of the `reduce` over the ascending community-score
entries: starting from `(current, 0)` and replacing only on a strictly
greater score, the fold returns either its start or the least key of
the list attaining the maximal score. -/
lemma bestFold_spec (count : ℕ → ℕ) (L : List ℕ) (b₀ : ℕ × ℕ)
    (hsort : L.Sorted (· ≤ ·)) :
    (L.foldl (fun b c => if count c > b.2 then (c, count c) else b) b₀ = b₀ ∨
      ((L.foldl (fun b c => if count c > b.2 then (c, count c) else b) b₀).1
          ∈ L ∧
       count (L.foldl (fun b c => if count c > b.2 then (c, count c) else b)
          b₀).1 =
        (L.foldl (fun b c => if count c > b.2 then (c, count c) else b)
          b₀).2 ∧
       b₀.2 < (L.foldl (fun b c => if count c > b.2 then (c, count c) else b)
          b₀).2)) ∧
    (∀ c ∈ L, count c ≤
      (L.foldl (fun b c => if count c > b.2 then (c, count c) else b) b₀).2) ∧
    b₀.2 ≤ (L.foldl (fun b c => if count c > b.2 then (c, count c) else b)
      b₀).2 ∧
    (∀ c ∈ L, count c =
        (L.foldl (fun b c => if count c > b.2 then (c, count c) else b)
          b₀).2 →
      b₀.2 < (L.foldl (fun b c => if count c > b.2 then (c, count c) else b)
        b₀).2 →
      (L.foldl (fun b c => if count c > b.2 then (c, count c) else b) b₀).1
        ≤ c) := by
  induction L generalizing b₀ with
  | nil => simp
  | cons c L' ih =>
      have hsort' : L'.Sorted (· ≤ ·) := hsort.tail
      have hhead : ∀ d ∈ L', c ≤ d := fun d hd =>
        (List.sorted_cons.1 hsort).1 d hd
      by_cases hgt : count c > b₀.2
      · -- the head strictly improves: restart the fold from (c, count c)
        have hstep : (c :: L').foldl
            (fun b c => if count c > b.2 then (c, count c) else b) b₀ =
            L'.foldl (fun b c => if count c > b.2 then (c, count c) else b)
              (c, count c) := by
          simp [List.foldl_cons, hgt]
        obtain ⟨ha, hb, hc', hleast⟩ := ih (c, count c) hsort'
        rw [hstep]
        set b := L'.foldl (fun b c => if count c > b.2 then (c, count c)
          else b) (c, count c) with hbdef
        refine ⟨?_, ?_, ?_, ?_⟩
        · rcases ha with ha | ha
          · exact Or.inr ⟨by rw [ha]; simp, by rw [ha], by rw [ha]; exact hgt⟩
          · exact Or.inr ⟨List.mem_cons_of_mem _ ha.1, ha.2.1,
              lt_of_le_of_lt (le_of_lt hgt) ha.2.2⟩
        · intro d hd
          rcases List.mem_cons.1 hd with rfl | hd'
          · exact le_trans (le_refl _) hc'
          · exact hb d hd'
        · exact le_trans (le_of_lt hgt) hc'
        · intro d hd hcount hlt
          rcases List.mem_cons.1 hd with rfl | hd'
          · -- d = c: the fold cannot have strictly improved past count c
            rcases ha with ha | ha
            · rw [ha]
            · exact absurd hcount (by omega)
          · rcases ha with ha | ha
            · rw [ha]
              exact hhead d hd'
            · exact hleast d hd' hcount ha.2.2
      · -- the head does not improve: the fold continues from b₀
        have hstep : (c :: L').foldl
            (fun b c => if count c > b.2 then (c, count c) else b) b₀ =
            L'.foldl (fun b c => if count c > b.2 then (c, count c) else b)
              b₀ := by
          simp [List.foldl_cons, hgt]
        obtain ⟨ha, hb, hc', hleast⟩ := ih b₀ hsort'
        rw [hstep]
        refine ⟨?_, ?_, ?_, ?_⟩
        · rcases ha with ha | ha
          · exact Or.inl ha
          · exact Or.inr ⟨List.mem_cons_of_mem _ ha.1, ha.2.1, ha.2.2⟩
        · intro d hd'
          rcases List.mem_cons.1 hd' with rfl | hd''
          · omega
          · exact hb d hd''
        · exact hc'
        · intro d hd' hcount hlt
          rcases List.mem_cons.1 hd' with rfl | hd''
          · omega
          · exact hleast d hd'' hcount hlt

/-- Full specification of a relabeling step of `detectCommunities`:
when the step changes the state, it writes the least community id of
maximal positive tally into the node's entry. -/
lemma commStep_spec (adj : List (String × List String))
    (st : List (String × ℕ)) (v : String) (h : commStep adj st v ≠ st) :
    commStep adj st v =
      jsSet st v (lookupD (commStep adj st v) v 0) ∧
    0 < ((adjOf adj v).map (fun nb => lookupD st nb 0)).count
        (lookupD (commStep adj st v) v 0) ∧
    lookupD (commStep adj st v) v 0 ≠ lookupD st v 0 ∧
    (∀ d : ℕ, ((adjOf adj v).map (fun nb => lookupD st nb 0)).count d ≤
      ((adjOf adj v).map (fun nb => lookupD st nb 0)).count
        (lookupD (commStep adj st v) v 0)) ∧
    (∀ d : ℕ, ((adjOf adj v).map (fun nb => lookupD st nb 0)).count d =
        ((adjOf adj v).map (fun nb => lookupD st nb 0)).count
          (lookupD (commStep adj st v) v 0) →
      lookupD (commStep adj st v) v 0 ≤ d) := by
  by_cases hcond : ((List.insertionSort (· ≤ ·)
        ((adjOf adj v).map (fun nb => lookupD st nb 0)).dedup).foldl
      (fun (b : ℕ × ℕ) c =>
        if ((adjOf adj v).map (fun nb => lookupD st nb 0)).count c > b.2 then
          (c, ((adjOf adj v).map (fun nb => lookupD st nb 0)).count c)
        else b)
      (lookupD st v 0, 0)).1 ≠ lookupD st v 0 ∧
      0 < ((List.insertionSort (· ≤ ·)
        ((adjOf adj v).map (fun nb => lookupD st nb 0)).dedup).foldl
      (fun (b : ℕ × ℕ) c =>
        if ((adjOf adj v).map (fun nb => lookupD st nb 0)).count c > b.2 then
          (c, ((adjOf adj v).map (fun nb => lookupD st nb 0)).count c)
        else b)
      (lookupD st v 0, 0)).2
  · have hstep : commStep adj st v = jsSet st v
        ((List.insertionSort (· ≤ ·)
          ((adjOf adj v).map (fun nb => lookupD st nb 0)).dedup).foldl
        (fun (b : ℕ × ℕ) c =>
          if ((adjOf adj v).map (fun nb => lookupD st nb 0)).count c > b.2
          then (c, ((adjOf adj v).map (fun nb => lookupD st nb 0)).count c)
          else b)
        (lookupD st v 0, 0)).1 := by
      unfold commStep
      rw [if_pos hcond]
    set labels := (adjOf adj v).map (fun nb => lookupD st nb 0) with hlabels
    set ks := List.insertionSort (· ≤ ·) labels.dedup with hks
    set best := ks.foldl
      (fun (b : ℕ × ℕ) c =>
        if labels.count c > b.2 then (c, labels.count c) else b)
      (lookupD st v 0, 0) with hbest
    have hnew : lookupD (commStep adj st v) v 0 = best.1 := by
      rw [hstep]
      simp [lookupD, jsLookup_jsSet_self]
    have hmemks : ∀ d : ℕ, d ∈ ks ↔ d ∈ labels := by
      intro d
      rw [hks]
      rw [(List.perm_insertionSort (· ≤ ·) labels.dedup).mem_iff]
      exact List.mem_dedup
    obtain ⟨ha, hb, _, hleast⟩ := bestFold_spec labels.count ks
      (lookupD st v 0, 0) (List.sorted_insertionSort (· ≤ ·) labels.dedup)
    rw [← hbest] at ha hb hleast
    have himproved : best.1 ∈ ks ∧ labels.count best.1 = best.2 ∧
        0 < best.2 := by
      rcases ha with ha | ha
      · exfalso
        have : best.2 = 0 := by rw [ha]
        omega
      · exact ⟨ha.1, ha.2.1, by simpa using ha.2.2⟩
    have hcount_le : ∀ d : ℕ, labels.count d ≤ best.2 := by
      intro d
      by_cases hd : d ∈ labels
      · exact hb d ((hmemks d).2 hd)
      · rw [List.count_eq_zero.2 hd]
        omega
    refine ⟨?_, ?_, ?_, ?_, ?_⟩
    · rw [hnew]
      exact hstep
    · rw [hnew, himproved.2.1]
      exact himproved.2.2
    · rw [hnew]
      exact hcond.1
    · intro d
      rw [hnew, himproved.2.1]
      exact hcount_le d
    · intro d hd
      rw [hnew] at hd ⊢
      rw [himproved.2.1] at hd
      have hdpos : 0 < labels.count d := hd ▸ himproved.2.2
      have hdmem : d ∈ labels := by
        by_contra hnm
        rw [List.count_eq_zero.2 hnm] at hdpos
        omega
      exact hleast d ((hmemks d).2 hdmem) hd (by simpa using himproved.2.2)
  · exfalso
    apply h
    unfold commStep
    rw [if_neg hcond]

/-- **C5, amended.**  When `detectCommunities` relabels a node, the new
community has a positive tally among the node's neighbors that is
maximal over all communities, and it is the least community id
attaining that maximum; relabeling to a community whose tally merely
equals the current community's tally is possible (the current community
enjoys no tie advantage), and full passes repeat until one changes
nothing (`commLoop`). -/
theorem C5_amended_relabel_rule (adj : List (String × List String))
    (st : List (String × ℕ)) (v : String) (h : commStep adj st v ≠ st) :
    0 < ((adjOf adj v).map (fun nb => lookupD st nb 0)).count
        (lookupD (commStep adj st v) v 0) ∧
    lookupD (commStep adj st v) v 0 ≠ lookupD st v 0 ∧
    (∀ d : ℕ, ((adjOf adj v).map (fun nb => lookupD st nb 0)).count d ≤
      ((adjOf adj v).map (fun nb => lookupD st nb 0)).count
        (lookupD (commStep adj st v) v 0)) ∧
    (∀ d : ℕ, ((adjOf adj v).map (fun nb => lookupD st nb 0)).count d =
        ((adjOf adj v).map (fun nb => lookupD st nb 0)).count
          (lookupD (commStep adj st v) v 0) →
      lookupD (commStep adj st v) v 0 ≤ d) :=
  ⟨(commStep_spec adj st v h).2.1, (commStep_spec adj st v h).2.2.1,
   (commStep_spec adj st v h).2.2.2.1, (commStep_spec adj st v h).2.2.2.2⟩

/-- Witness for the amended C5: the relabeling of node `c` during the
first pass on `commTieGraph` obeys the maximal-tally least-id rule. -/
theorem C5_amended_witness :
    0 < ((adjOf (buildAdjacencyList commTieGraph) "c").map
        (fun nb => lookupD [("a", 2), ("b", 1), ("c", 2)] nb 0)).count
        (lookupD (commStep (buildAdjacencyList commTieGraph)
          [("a", 2), ("b", 1), ("c", 2)] "c") "c" 0) ∧
    lookupD (commStep (buildAdjacencyList commTieGraph)
        [("a", 2), ("b", 1), ("c", 2)] "c") "c" 0 ≠
      lookupD [("a", 2), ("b", 1), ("c", 2)] "c" 0 ∧
    (∀ d : ℕ, ((adjOf (buildAdjacencyList commTieGraph) "c").map
        (fun nb => lookupD [("a", 2), ("b", 1), ("c", 2)] nb 0)).count d ≤
      ((adjOf (buildAdjacencyList commTieGraph) "c").map
        (fun nb => lookupD [("a", 2), ("b", 1), ("c", 2)] nb 0)).count
        (lookupD (commStep (buildAdjacencyList commTieGraph)
          [("a", 2), ("b", 1), ("c", 2)] "c") "c" 0)) ∧
    (∀ d : ℕ, ((adjOf (buildAdjacencyList commTieGraph) "c").map
        (fun nb => lookupD [("a", 2), ("b", 1), ("c", 2)] nb 0)).count d =
        ((adjOf (buildAdjacencyList commTieGraph) "c").map
          (fun nb => lookupD [("a", 2), ("b", 1), ("c", 2)] nb 0)).count
          (lookupD (commStep (buildAdjacencyList commTieGraph)
            [("a", 2), ("b", 1), ("c", 2)] "c") "c" 0) →
      lookupD (commStep (buildAdjacencyList commTieGraph)
        [("a", 2), ("b", 1), ("c", 2)] "c") "c" 0 ≤ d) :=
  C5_amended_relabel_rule (buildAdjacencyList commTieGraph)
    [("a", 2), ("b", 1), ("c", 2)] "c" (by decide)

/-!
## Counting lemmas for the label-propagation potential
-/

lemma count_map_update (L : List String) (hnd : L.Nodup)
    (f : String → ℕ) (v : String) (c x : ℕ) :
    (L.map (fun nb => if nb = v then c else f nb)).count x +
      (if v ∈ L ∧ f v = x then 1 else 0) =
    (L.map f).count x + (if v ∈ L ∧ c = x then 1 else 0) := by
  induction L with
  | nil => simp
  | cons u rest ih =>
      have hnd' : rest.Nodup := hnd.of_cons
      by_cases hu : u = v
      · subst hu
        have hnr : u ∉ rest := (List.nodup_cons.1 hnd).1
        have hmap : rest.map (fun nb => if nb = u then c else f nb) =
            rest.map f := by
          refine List.map_congr_left fun nb hnb => ?_
          have : nb ≠ u := fun h => hnr (h ▸ hnb)
          simp [this]
        simp only [List.map_cons, if_pos rfl, List.count_cons, hmap]
        by_cases hc : c = x <;> by_cases hf : f u = x <;>
          simp [hc, hf]
      · have hne : u ≠ v := hu
        simp only [List.map_cons, if_neg hne, List.count_cons]
        have hiff : (v ∈ u :: rest) ↔ (v ∈ rest) := by
          constructor
          · intro h
            rcases List.mem_cons.1 h with h | h
            · exact absurd h.symm hne
            · exact h
          · exact fun h => List.mem_cons_of_mem _ h
        rw [show ((if v ∈ u :: rest ∧ f v = x then 1 else 0) =
            (if v ∈ rest ∧ f v = x then 1 else 0)) by simp [hiff]]
        rw [show ((if v ∈ u :: rest ∧ c = x then 1 else 0) =
            (if v ∈ rest ∧ c = x then 1 else 0)) by simp [hiff]]
        have := ih hnd'
        omega

lemma sum_map_add_distrib {α : Type} (L : List α) (f g : α → ℕ) :
    (L.map (fun w => f w + g w)).sum = (L.map f).sum + (L.map g).sum := by
  induction L with
  | nil => simp
  | cons u rest ih => simp [ih]; omega

lemma sum_single_indicator (ids : List String) (x : String)
    (P : String → Prop) [DecidablePred P] (hnd : ids.Nodup)
    (hx : x ∈ ids) :
    (ids.map (fun w => if w = x ∧ P w then 1 else 0)).sum =
      (if P x then 1 else 0) := by
  induction ids with
  | nil => simp at hx
  | cons u rest ih =>
      rcases List.mem_cons.1 hx with hux | hx'
      · subst hux
        have hnr : x ∉ rest := (List.nodup_cons.1 hnd).1
        have hz : (rest.map (fun w => if w = x ∧ P w then 1 else 0)).sum
            = 0 := by
          rw [List.sum_eq_zero]
          intro y hy
          simp only [List.mem_map] at hy
          obtain ⟨w, hw, hwy⟩ := hy
          have : w ≠ x := fun h => hnr (h ▸ hw)
          simp [this] at hwy
          omega
        simp [hz]
      · have hnr : u ∉ rest := (List.nodup_cons.1 hnd).1
        have hux : ¬ u = x := fun h => hnr (h ▸ hx')
        have hcd : ¬ (u = x ∧ P u) := fun hc => hux hc.1
        simp only [List.map_cons, List.sum_cons, if_neg hcd]
        rw [ih hnd.of_cons hx']
        simp

lemma sum_indicator_countP (ids sub : List String) (P : String → Prop)
    [DecidablePred P] (hnd : ids.Nodup) (hsubnd : sub.Nodup)
    (hsub : ∀ y ∈ sub, y ∈ ids) :
    (ids.map (fun w => if w ∈ sub ∧ P w then 1 else 0)).sum =
      sub.countP (fun w => decide (P w)) := by
  induction sub with
  | nil => simp
  | cons x sub' ih =>
      have hxs : x ∉ sub' := (List.nodup_cons.1 hsubnd).1
      have hpt : ∀ w, (if w ∈ x :: sub' ∧ P w then 1 else 0) =
          (if w = x ∧ P w then 1 else 0) +
          (if w ∈ sub' ∧ P w then (1 : ℕ) else 0) := by
        intro w
        by_cases hw : w = x
        · subst hw
          simp [hxs]
        · simp [List.mem_cons, hw]
      calc (ids.map (fun w => if w ∈ x :: sub' ∧ P w then 1 else 0)).sum
          = (ids.map (fun w => (if w = x ∧ P w then 1 else 0) +
              (if w ∈ sub' ∧ P w then 1 else 0))).sum := by
            exact congrArg _ (List.map_congr_left fun w _ => hpt w)
        _ = (ids.map (fun w => if w = x ∧ P w then 1 else 0)).sum +
            (ids.map (fun w => if w ∈ sub' ∧ P w then 1 else 0)).sum :=
            sum_map_add_distrib _ _ _
        _ = (if P x then 1 else 0) + sub'.countP (fun w => decide (P w)) := by
            rw [sum_single_indicator ids x P hnd (hsub x (by simp)),
              ih hsubnd.of_cons (fun y hy => hsub y (by simp [hy]))]
        _ = (x :: sub').countP (fun w => decide (P w)) := by
            rw [List.countP_cons]
            by_cases hp : P x <;> simp [hp] <;> omega

lemma countP_erase_add (L : List String) (v : String) (hnd : L.Nodup)
    (p : String → Prop) [DecidablePred p] :
    (L.erase v).countP (fun w => decide (p w)) +
      (if v ∈ L ∧ p v then 1 else 0) =
    L.countP (fun w => decide (p w)) := by
  by_cases hv : v ∈ L
  · have hperm : List.Perm L (v :: L.erase v) := List.perm_cons_erase hv
    rw [hperm.countP_eq]
    rw [List.countP_cons]
    by_cases hp : p v <;> simp [hp, hv]
  · rw [List.erase_of_not_mem hv]
    simp [hv]

lemma count_map_eq_countP (L : List String) (f : String → ℕ) (x : ℕ) :
    (L.map f).count x = L.countP (fun a => decide (f a = x)) := by
  induction L with
  | nil => simp
  | cons u rest ih =>
      simp only [List.map_cons, List.count_cons, List.countP_cons, ih]
      by_cases hu : f u = x <;> simp [hu]

lemma sum_map_erase (ids : List String) (v : String) (F : String → ℕ)
    (hv : v ∈ ids) :
    (ids.map F).sum = F v + ((ids.erase v).map F).sum := by
  have hperm : List.Perm ids (v :: ids.erase v) := List.perm_cons_erase hv
  rw [(hperm.map F).sum_eq]
  simp

lemma values_sum_jsSet (m : List (String × ℕ)) (v : String) (c : ℕ)
    (hv : v ∈ m.map (·.1)) :
    ((jsSet m v c).map (·.2)).sum + lookupD m v 0 =
      (m.map (·.2)).sum + c := by
  induction m with
  | nil => simp at hv
  | cons p rest ih =>
      obtain ⟨k, val⟩ := p
      by_cases hk : k = v
      · subst hk
        simp [jsSet, lookupD, jsLookup]
        omega
      · have hv' : v ∈ rest.map (·.1) := by
          rcases List.mem_cons.1 hv with h | h
          · exact absurd h.symm hk
          · exact h
        simp only [jsSet, if_neg hk, List.map_cons, List.sum_cons]
        have : lookupD ((k, val) :: rest) v 0 = lookupD rest v 0 := by
          simp [lookupD, jsLookup, hk]
        rw [this]
        have := ih hv'
        omega

/-!
## Termination of label propagation (C6): map and key infrastructure
-/

lemma lookupD_jsSet {α : Type} (m : List (String × α)) (v w : String)
    (c : α) (d : α) :
    lookupD (jsSet m v c) w d = if w = v then c else lookupD m w d := by
  by_cases h : w = v
  · subst h
    simp [lookupD, jsLookup_jsSet_self]
  · simp [lookupD, jsLookup_jsSet_ne m v w c h, h]

lemma hasKey_iff_mem_keys {α : Type} (m : List (String × α)) (k : String) :
    hasKey m k = true ↔ k ∈ m.map (·.1) := by
  rw [hasKey]
  cases h : jsLookup m k with
  | none =>
      simp only [Option.isSome_none]
      exact ⟨fun hh => by simp at hh, fun hh =>
        absurd ((jsLookup_eq_none_iff m k).1 h) (by simp [hh])⟩
  | some v =>
      simp only [Option.isSome_some]
      refine ⟨fun _ => ?_, fun _ => trivial⟩
      exact List.mem_map.2 ⟨(k, v), jsLookup_mem h, rfl⟩

lemma keys_jsSet_congr {α β : Type} (m₁ : List (String × α))
    (m₂ : List (String × β)) (k : String) (v₁ : α) (v₂ : β)
    (h : m₁.map (·.1) = m₂.map (·.1)) :
    (jsSet m₁ k v₁).map (·.1) = (jsSet m₂ k v₂).map (·.1) := by
  by_cases hk : hasKey m₁ k
  · have hk₂ : hasKey m₂ k := by
      rw [hasKey_iff_mem_keys] at hk ⊢
      rw [← h]
      exact hk
    rw [keys_jsSet_of_hasKey m₁ k v₁ hk, keys_jsSet_of_hasKey m₂ k v₂ hk₂, h]
  · have hk₁ : hasKey m₁ k = false := by simpa using hk
    have hk₂ : hasKey m₂ k = false := by
      rw [← Bool.not_eq_true] at *
      intro hc
      exact hk (by rw [hasKey_iff_mem_keys] at hc ⊢; rw [h]; exact hc)
    rw [keys_jsSet_of_not_hasKey m₁ k v₁ hk₁,
      keys_jsSet_of_not_hasKey m₂ k v₂ hk₂, h]

lemma keys_foldl_jsSet_congr {α β γ : Type} (key : γ → String)
    (v₁ : γ → α) (v₂ : γ → β) :
    ∀ (xs : List γ) (m₁ : List (String × α)) (m₂ : List (String × β)),
      m₁.map (·.1) = m₂.map (·.1) →
      (xs.foldl (fun m x => jsSet m (key x) (v₁ x)) m₁).map (·.1) =
        (xs.foldl (fun m x => jsSet m (key x) (v₂ x)) m₂).map (·.1)
  | [], _, _, h => h
  | x :: xs, m₁, m₂, h =>
      keys_foldl_jsSet_congr key v₁ v₂ xs _ _
        (keys_jsSet_congr m₁ m₂ (key x) (v₁ x) (v₂ x) h)

lemma keys_nodup_foldl_jsSet {α γ : Type} (key : γ → String)
    (val : γ → α) :
    ∀ (xs : List γ) (m : List (String × α)), (m.map (·.1)).Nodup →
      ((xs.foldl (fun m x => jsSet m (key x) (val x)) m).map (·.1)).Nodup
  | [], _, h => h
  | x :: xs, m, h =>
      keys_nodup_foldl_jsSet key val xs _ (keys_nodup_jsSet m _ _ h)

lemma hasKey_foldl_jsSet {α γ : Type} (key : γ → String) (val : γ → α)
    (k : String) :
    ∀ (xs : List γ) (m : List (String × α)),
      hasKey (xs.foldl (fun m x => jsSet m (key x) (val x)) m) k =
        (hasKey m k || decide (k ∈ xs.map key))
  | [], m => by simp
  | x :: xs, m => by
      show hasKey (xs.foldl _ (jsSet m (key x) (val x))) k = _
      rw [hasKey_foldl_jsSet key val k xs, hasKey_jsSet]
      by_cases hk : k = key x
      · simp [hk]
      · have hne : ¬ key x = k := fun h => hk h.symm
        simp [hk, hne]

lemma engineNodeIds_nodup (g : Graph) : (engineNodeIds g).Nodup :=
  keys_nodup_foldl_jsSet (fun n : GraphNode => n.id) (fun n => n) g.nodes []
    (by simp)

lemma mem_engineNodeIds (g : Graph) (k : String) :
    k ∈ engineNodeIds g ↔ k ∈ g.nodes.map (·.id) := by
  rw [show engineNodeIds g =
    (g.nodes.foldl (fun m n => jsSet m n.id n) []).map (·.1) from rfl]
  rw [← hasKey_iff_mem_keys,
    hasKey_foldl_jsSet (fun n : GraphNode => n.id) (fun n => n) k g.nodes []]
  simp [hasKey, jsLookup]

lemma keys_addNeighbor (m : List (String × List String)) (k nb : String) :
    (addNeighbor m k nb).map (·.1) = m.map (·.1) := by
  unfold addNeighbor
  cases h : jsLookup m k with
  | none => rfl
  | some lst =>
      by_cases hnb : nb ∈ lst
      · simp [hnb]
      · simp only [hnb, if_false]
        exact keys_jsSet_of_hasKey m k _ (by simp [hasKey, h])

lemma keys_buildAdjacencyList (g : Graph) :
    (buildAdjacencyList g).map (·.1) = engineNodeIds g := by
  show ((g.links.foldl (fun m l =>
    addNeighbor (addNeighbor m l.source l.target) l.target l.source)
    (g.nodes.foldl (fun m n => jsSet m n.id []) [])).map (·.1)) = _
  have key : ∀ (ls : List GraphLink) (m : List (String × List String)),
      (ls.foldl (fun m l =>
        addNeighbor (addNeighbor m l.source l.target) l.target l.source)
        m).map (·.1) = m.map (·.1) := by
    intro ls
    induction ls with
    | nil => intro m; rfl
    | cons l rest ih =>
        intro m
        rw [List.foldl_cons, ih, keys_addNeighbor, keys_addNeighbor]
  rw [key]
  exact keys_foldl_jsSet_congr (fun n : GraphNode => n.id) (fun _ => ([] : List String))
    (fun n => n) g.nodes [] [] rfl

lemma lookupD_mem_values {α : Type} (m : List (String × α)) (w : String)
    (d : α) (hw : w ∈ m.map (·.1)) : lookupD m w d ∈ m.map (·.2) := by
  cases h : jsLookup m w with
  | none => exact absurd ((jsLookup_eq_none_iff m w).1 h) (by simp [hw])
  | some v =>
      have : lookupD m w d = v := by simp [lookupD, h]
      rw [this]
      exact List.mem_map.2 ⟨(w, v), jsLookup_mem h, rfl⟩

lemma commInit_keys (ids : List String) :
    (commInit ids).map (·.1) = ids := by
  unfold commInit
  rw [List.map_map]
  exact List.enum_map_snd ids

lemma commInit_values (ids : List String) :
    (commInit ids).map (·.2) = List.range ids.length := by
  unfold commInit
  rw [List.map_map]
  exact List.enum_map_fst ids

lemma commInit_labels_lt (ids : List String) (w : String) (hw : w ∈ ids) :
    lookupD (commInit ids) w 0 < ids.length := by
  have hw' : w ∈ (commInit ids).map (·.1) := by
    rw [commInit_keys]; exact hw
  have := lookupD_mem_values (commInit ids) w 0 hw'
  rw [commInit_values] at this
  exact List.mem_range.1 this

lemma range_sum_le_sq (n : ℕ) : (List.range n).sum ≤ n * n := by
  induction n with
  | zero => simp
  | succ n ih =>
      rw [List.range_succ, List.sum_append]
      have h : (n + 1) * (n + 1) = n * n + 2 * n + 1 := by ring
      simp only [List.sum_cons, List.sum_nil]
      omega

lemma monoE_le (adj : List (String × List String)) (ids : List String)
    (st : List (String × ℕ)) :
    monoE adj ids st ≤ (ids.map (fun w => (adjOf adj w).length)).sum := by
  unfold monoE
  refine List.sum_le_sum ?_
  intro w _
  unfold tallyAt
  have h := List.count_le_length (lookupD st w 0)
    ((adjOf adj w).map (fun nb => lookupD st nb 0))
  simpa using h

/-- The accounting identity behind the termination measure: writing the
label `c` into node `v`'s entry trades, inside the monochromatic-entry
count, twice the old tally of `v`'s current community for twice the
tally of `c` plus twice the self-loop indicator. -/
lemma monoE_jsSet (adj : List (String × List String)) (ids : List String)
    (st : List (String × ℕ)) (v : String) (c : ℕ)
    (hnd : ids.Nodup) (hv : v ∈ ids)
    (hsym : ∀ w u, u ∈ adjOf adj w ↔ w ∈ adjOf adj u)
    (hadjnd : ∀ w, (adjOf adj w).Nodup)
    (hclosed : ∀ u ∈ adjOf adj v, u ∈ ids)
    (hca : c ≠ lookupD st v 0) :
    monoE adj ids (jsSet st v c) + 2 * tallyAt adj st v (lookupD st v 0) =
      monoE adj ids st + 2 * tallyAt adj st v c +
        2 * (if v ∈ adjOf adj v then 1 else 0) := by
  have hup : ∀ w, lookupD (jsSet st v c) w 0 =
      if w = v then c else lookupD st w 0 := fun w => lookupD_jsSet st v w c 0
  have hfun : (fun nb => lookupD (jsSet st v c) nb 0) =
      (fun nb => if nb = v then c else lookupD st nb 0) := funext hup
  have hsplit' : monoE adj ids (jsSet st v c) =
      tallyAt adj (jsSet st v c) v (lookupD (jsSet st v c) v 0) +
      ((ids.erase v).map (fun w =>
        tallyAt adj (jsSet st v c) w (lookupD (jsSet st v c) w 0))).sum :=
    sum_map_erase ids v _ hv
  have hsplit : monoE adj ids st =
      tallyAt adj st v (lookupD st v 0) +
      ((ids.erase v).map (fun w =>
        tallyAt adj st w (lookupD st w 0))).sum :=
    sum_map_erase ids v _ hv
  have hvc : lookupD (jsSet st v c) v 0 = c := by
    rw [hup v]
    simp
  -- the head term: v's own tally after the update
  have hhead : tallyAt adj (jsSet st v c) v (lookupD (jsSet st v c) v 0) =
      tallyAt adj st v c + (if v ∈ adjOf adj v then 1 else 0) := by
    have h0 : ((adjOf adj v).map
          (fun nb => if nb = v then c else lookupD st nb 0)).count c +
        (if v ∈ adjOf adj v ∧ lookupD st v 0 = c then 1 else 0) =
        ((adjOf adj v).map (fun nb => lookupD st nb 0)).count c +
        (if v ∈ adjOf adj v ∧ c = c then 1 else 0) :=
      count_map_update (adjOf adj v) (hadjnd v)
        (fun w => lookupD st w 0) v c c
    have hind1 : (if v ∈ adjOf adj v ∧ lookupD st v 0 = c then 1 else 0)
        = 0 := if_neg (fun h => hca h.2.symm)
    have hind2 : (if v ∈ adjOf adj v ∧ c = c then 1 else 0) =
        (if v ∈ adjOf adj v then (1 : ℕ) else 0) := by
      by_cases h : v ∈ adjOf adj v <;> simp [h]
    rw [hind1, hind2] at h0
    unfold tallyAt
    rw [hvc, hfun]
    omega
  -- pointwise accounting on the remaining nodes
  have htailpt : ∀ w ∈ ids.erase v,
      tallyAt adj (jsSet st v c) w (lookupD (jsSet st v c) w 0) +
        (if w ∈ (adjOf adj v).erase v ∧ lookupD st w 0 = lookupD st v 0
          then 1 else 0) =
      tallyAt adj st w (lookupD st w 0) +
        (if w ∈ (adjOf adj v).erase v ∧ lookupD st w 0 = c
          then 1 else 0) := by
    intro w hw
    have hwv : w ≠ v := ((hnd.mem_erase_iff).1 hw).1
    have hwup : lookupD (jsSet st v c) w 0 = lookupD st w 0 := by
      rw [hup w, if_neg hwv]
    have h0 : ((adjOf adj w).map
          (fun nb => if nb = v then c else lookupD st nb 0)).count
            (lookupD st w 0) +
        (if v ∈ adjOf adj w ∧ lookupD st v 0 = lookupD st w 0
          then 1 else 0) =
        ((adjOf adj w).map (fun nb => lookupD st nb 0)).count
            (lookupD st w 0) +
        (if v ∈ adjOf adj w ∧ c = lookupD st w 0 then 1 else 0) :=
      count_map_update (adjOf adj w) (hadjnd w)
        (fun u => lookupD st u 0) v c _
    have hmem : (v ∈ adjOf adj w) ↔ (w ∈ (adjOf adj v).erase v) := by
      rw [hsym w v, (hadjnd v).mem_erase_iff]
      exact ⟨fun h => ⟨hwv, h⟩, fun h => h.2⟩
    have hi1 : (if v ∈ adjOf adj w ∧ lookupD st v 0 = lookupD st w 0
          then (1 : ℕ) else 0) =
        (if w ∈ (adjOf adj v).erase v ∧ lookupD st w 0 = lookupD st v 0
          then 1 else 0) :=
      if_congr (and_congr hmem eq_comm) rfl rfl
    have hi2 : (if v ∈ adjOf adj w ∧ c = lookupD st w 0
          then (1 : ℕ) else 0) =
        (if w ∈ (adjOf adj v).erase v ∧ lookupD st w 0 = c
          then 1 else 0) :=
      if_congr (and_congr hmem eq_comm) rfl rfl
    rw [hi1, hi2] at h0
    unfold tallyAt
    rw [hwup, hfun]
    exact h0
  -- summed tail accounting
  have htail : ((ids.erase v).map (fun w =>
        tallyAt adj (jsSet st v c) w (lookupD (jsSet st v c) w 0))).sum +
      ((ids.erase v).map (fun w =>
        if w ∈ (adjOf adj v).erase v ∧ lookupD st w 0 = lookupD st v 0
        then 1 else 0)).sum =
      ((ids.erase v).map (fun w =>
        tallyAt adj st w (lookupD st w 0))).sum +
      ((ids.erase v).map (fun w =>
        if w ∈ (adjOf adj v).erase v ∧ lookupD st w 0 = c
        then 1 else 0)).sum := by
    rw [← sum_map_add_distrib, ← sum_map_add_distrib]
    exact congrArg _ (List.map_congr_left htailpt)
  -- identify the indicator sums with neighbor-community tallies
  have hsubnd : ((adjOf adj v).erase v).Nodup := (hadjnd v).erase v
  have hsubids : ∀ y ∈ (adjOf adj v).erase v, y ∈ ids.erase v := by
    intro y hy
    have h := ((hadjnd v).mem_erase_iff).1 hy
    exact (hnd.mem_erase_iff).2 ⟨h.1, hclosed y h.2⟩
  have hI1 : ((ids.erase v).map (fun w =>
      if w ∈ (adjOf adj v).erase v ∧ lookupD st w 0 = lookupD st v 0
      then 1 else 0)).sum =
      ((adjOf adj v).erase v).countP
        (fun w => decide (lookupD st w 0 = lookupD st v 0)) :=
    sum_indicator_countP (ids.erase v) ((adjOf adj v).erase v)
      (fun w => lookupD st w 0 = lookupD st v 0)
      (hnd.erase v) hsubnd hsubids
  have hI2 : ((ids.erase v).map (fun w =>
      if w ∈ (adjOf adj v).erase v ∧ lookupD st w 0 = c
      then 1 else 0)).sum =
      ((adjOf adj v).erase v).countP
        (fun w => decide (lookupD st w 0 = c)) :=
    sum_indicator_countP (ids.erase v) ((adjOf adj v).erase v)
      (fun w => lookupD st w 0 = c)
      (hnd.erase v) hsubnd hsubids
  have hC1 : ((adjOf adj v).erase v).countP
        (fun w => decide (lookupD st w 0 = lookupD st v 0)) +
      (if v ∈ adjOf adj v then 1 else 0) =
      tallyAt adj st v (lookupD st v 0) := by
    have h0 : ((adjOf adj v).erase v).countP
          (fun w => decide (lookupD st w 0 = lookupD st v 0)) +
        (if v ∈ adjOf adj v ∧ lookupD st v 0 = lookupD st v 0
          then 1 else 0) =
        (adjOf adj v).countP
          (fun w => decide (lookupD st w 0 = lookupD st v 0)) :=
      countP_erase_add (adjOf adj v) v (hadjnd v)
        (fun w => lookupD st w 0 = lookupD st v 0)
    have hi : (if v ∈ adjOf adj v ∧ lookupD st v 0 = lookupD st v 0
          then (1 : ℕ) else 0) =
        (if v ∈ adjOf adj v then 1 else 0) := by
      by_cases h : v ∈ adjOf adj v <;> simp [h]
    rw [hi] at h0
    rw [h0]
    unfold tallyAt
    exact (count_map_eq_countP (adjOf adj v)
      (fun w => lookupD st w 0) (lookupD st v 0)).symm
  have hC2 : ((adjOf adj v).erase v).countP
        (fun w => decide (lookupD st w 0 = c)) =
      tallyAt adj st v c := by
    have h0 : ((adjOf adj v).erase v).countP
          (fun w => decide (lookupD st w 0 = c)) +
        (if v ∈ adjOf adj v ∧ lookupD st v 0 = c then 1 else 0) =
        (adjOf adj v).countP (fun w => decide (lookupD st w 0 = c)) :=
      countP_erase_add (adjOf adj v) v (hadjnd v)
        (fun w => lookupD st w 0 = c)
    have hi : (if v ∈ adjOf adj v ∧ lookupD st v 0 = c then (1 : ℕ)
        else 0) = 0 := if_neg (fun h => hca h.2.symm)
    rw [hi] at h0
    have h1 : tallyAt adj st v c =
        (adjOf adj v).countP (fun w => decide (lookupD st w 0 = c)) :=
      count_map_eq_countP (adjOf adj v) (fun w => lookupD st w 0) c
    omega
  rw [hsplit', hsplit, hhead]
  rw [hI1, hI2] at htail
  omega

lemma measure_arith (Dn D Sn S a c n : ℕ) (hD : Dn < D) (hS : Sn + a = S + c)
    (hcn : c < n) : Dn * n + Sn < D * n + S := by
  have h1 : (Dn + 1) * n ≤ D * n := Nat.mul_le_mul_right n (by omega)
  have h2 : (Dn + 1) * n = Dn * n + n := by ring
  omega

/-- A relabeling step preserves the state's key list and label bound and
never increases the termination measure; when it changes the state the
measure strictly decreases. -/
lemma commStep_dec (adj : List (String × List String)) (ids : List String)
    (st : List (String × ℕ)) (v : String)
    (hnd : ids.Nodup)
    (hsym : ∀ w u, u ∈ adjOf adj w ↔ w ∈ adjOf adj u)
    (hadjnd : ∀ w, (adjOf adj w).Nodup)
    (hclosed : ∀ w u, u ∈ adjOf adj w → u ∈ ids)
    (hkeys : st.map (·.1) = ids)
    (hlab : ∀ w ∈ ids, lookupD st w 0 < ids.length)
    (hv : v ∈ ids) :
    (commStep adj st v).map (·.1) = ids ∧
    (∀ w ∈ ids, lookupD (commStep adj st v) w 0 < ids.length) ∧
    (commStep adj st v = st ∨
      commMeasure adj ids (commStep adj st v) < commMeasure adj ids st) := by
  by_cases hch : commStep adj st v = st
  · rw [hch]
    exact ⟨hkeys, hlab, Or.inl rfl⟩
  · obtain ⟨hstep, hpos, hne, hmax, hleast⟩ := commStep_spec adj st v hch
    set c := lookupD (commStep adj st v) v 0 with hc
    set a := lookupD st v 0 with ha2
    have hcmem : c ∈ (adjOf adj v).map (fun nb => lookupD st nb 0) := by
      by_contra hcon
      rw [List.count_eq_zero.2 hcon] at hpos
      exact absurd hpos (lt_irrefl 0)
    obtain ⟨nb, hnb, hnbc⟩ := List.mem_map.1 hcmem
    have hcn : c < ids.length := by
      rw [← hnbc]
      exact hlab nb (hclosed v nb hnb)
    have hhk : hasKey st v = true := by
      rw [hasKey_iff_mem_keys, hkeys]
      exact hv
    have hkeys' : (commStep adj st v).map (·.1) = ids := by
      rw [hstep, keys_jsSet_of_hasKey st v _ hhk, hkeys]
    have hlab' : ∀ w ∈ ids, lookupD (commStep adj st v) w 0 <
        ids.length := by
      intro w hw
      rw [hstep, lookupD_jsSet]
      by_cases hwv : w = v
      · rw [if_pos hwv]
        exact hcn
      · rw [if_neg hwv]
        exact hlab w hw
    have hacc := monoE_jsSet adj ids st v c hnd hv hsym hadjnd
      (fun u hu => hclosed v u hu) hne
    rw [← ha2] at hacc
    have hta : tallyAt adj st v a ≤ tallyAt adj st v c := hmax a
    have hmono_le := monoE_le adj ids st
    have hmono_le' := monoE_le adj ids (jsSet st v c)
    have hsum : ((jsSet st v c).map (·.2)).sum + a =
        (st.map (·.2)).sum + c :=
      values_sum_jsSet st v c (by rw [hkeys]; exact hv)
    refine ⟨hkeys', hlab', Or.inr ?_⟩
    rw [hstep]
    unfold commMeasure
    by_cases hcase : tallyAt adj st v a <
        tallyAt adj st v c + (if v ∈ adjOf adj v then 1 else 0)
    · -- the monochromatic count strictly increases
      have hmlt : monoE adj ids st < monoE adj ids (jsSet st v c) := by
        omega
      refine measure_arith _ _ _ _ a c _ (by omega) hsum hcn
    · -- tie: the node moves to a strictly smaller community id
      have hs0 : (if v ∈ adjOf adj v then 1 else 0) = 0 ∧
          tallyAt adj st v a = tallyAt adj st v c := by
        constructor <;> omega
      have hcount : ((adjOf adj v).map (fun nb => lookupD st nb 0)).count a
          = ((adjOf adj v).map (fun nb => lookupD st nb 0)).count c :=
        hs0.2
      have hcla : c ≤ a := hleast a hcount
      have hclt : c < a := lt_of_le_of_ne hcla hne
      have hmeq : monoE adj ids (jsSet st v c) = monoE adj ids st := by
        omega
      rw [hmeq]
      omega

lemma commFold_dec (adj : List (String × List String)) (ids : List String)
    (hnd : ids.Nodup)
    (hsym : ∀ w u, u ∈ adjOf adj w ↔ w ∈ adjOf adj u)
    (hadjnd : ∀ w, (adjOf adj w).Nodup)
    (hclosed : ∀ w u, u ∈ adjOf adj w → u ∈ ids) :
    ∀ (vs : List String), (∀ x ∈ vs, x ∈ ids) →
    ∀ (st : List (String × ℕ)), st.map (·.1) = ids →
      (∀ w ∈ ids, lookupD st w 0 < ids.length) →
      (vs.foldl (commStep adj) st).map (·.1) = ids ∧
      (∀ w ∈ ids, lookupD (vs.foldl (commStep adj) st) w 0 < ids.length) ∧
      (vs.foldl (commStep adj) st = st ∨
        commMeasure adj ids (vs.foldl (commStep adj) st) <
          commMeasure adj ids st) := by
  intro vs
  induction vs with
  | nil =>
      intro _ st hkeys hlab
      exact ⟨hkeys, hlab, Or.inl rfl⟩
  | cons v vs ih =>
      intro hvs st hkeys hlab
      have hstep := commStep_dec adj ids st v hnd hsym hadjnd hclosed
        hkeys hlab (hvs v (by simp))
      have hfold := ih (fun x hx => hvs x (by simp [hx])) (commStep adj st v)
        hstep.1 hstep.2.1
      rw [List.foldl_cons]
      refine ⟨hfold.1, hfold.2.1, ?_⟩
      rcases hstep.2.2 with heq | hlt
      · rw [heq] at hfold ⊢
        exact hfold.2.2
      · rcases hfold.2.2 with heq2 | hlt2
        · rw [heq2]
          exact Or.inr hlt
        · exact Or.inr (lt_trans hlt2 hlt)

lemma commLoop_fix (adj : List (String × List String)) (ids : List String)
    (hnd : ids.Nodup)
    (hsym : ∀ w u, u ∈ adjOf adj w ↔ w ∈ adjOf adj u)
    (hadjnd : ∀ w, (adjOf adj w).Nodup)
    (hclosed : ∀ w u, u ∈ adjOf adj w → u ∈ ids) :
    ∀ (fuel : ℕ) (st : List (String × ℕ)), st.map (·.1) = ids →
      (∀ w ∈ ids, lookupD st w 0 < ids.length) →
      commMeasure adj ids st < fuel →
      commPass adj ids (commLoop adj ids fuel st) =
        commLoop adj ids fuel st := by
  intro fuel
  induction fuel with
  | zero =>
      intro st _ _ hlt
      exact absurd hlt (by omega)
  | succ fuel ih =>
      intro st hkeys hlab hlt
      have hunf : commLoop adj ids (fuel + 1) st =
          if commPass adj ids st = st then st
          else commLoop adj ids fuel (commPass adj ids st) := rfl
      by_cases hfix : commPass adj ids st = st
      · rw [hunf, if_pos hfix]
        exact hfix
      · rw [hunf, if_neg hfix]
        have hfold := commFold_dec adj ids hnd hsym hadjnd hclosed ids
          (fun x hx => hx) st hkeys hlab
        have hkeys' : (commPass adj ids st).map (·.1) = ids := hfold.1
        have hlab' : ∀ w ∈ ids, lookupD (commPass adj ids st) w 0 <
            ids.length := hfold.2.1
        have hdec : commMeasure adj ids (commPass adj ids st) <
            commMeasure adj ids st := by
          rcases hfold.2.2 with h | h
          · exact absurd h hfix
          · exact h
        exact ih (commPass adj ids st) hkeys' hlab' (by omega)

lemma sum_adjOf_lengths :
    ∀ (m : List (String × List String)), ((m.map (·.1)).Nodup) →
    ((m.map (·.1)).map (fun w => (adjOf m w).length)).sum =
      (m.map (fun p => p.2.length)).sum
  | [], _ => rfl
  | (k, lst) :: rest, hnd => by
      have hk : k ∉ rest.map (·.1) := (List.nodup_cons.1 hnd).1
      have hrest : (rest.map (·.1)).Nodup := (List.nodup_cons.1 hnd).2
      simp only [List.map_cons, List.sum_cons]
      have hhead : adjOf ((k, lst) :: rest) k = lst := by
        simp [adjOf, jsLookup]
      have htail : (rest.map (·.1)).map
          (fun w => (adjOf ((k, lst) :: rest) w).length) =
          (rest.map (·.1)).map (fun w => (adjOf rest w).length) := by
        refine List.map_congr_left ?_
        intro w hw
        have hwk : ¬ k = w := fun h => hk (h ▸ hw)
        simp [adjOf, jsLookup, hwk]
      rw [hhead, htail, sum_adjOf_lengths rest hrest]

lemma commMeasure_init_lt (g : Graph) :
    commMeasure (buildAdjacencyList g) (engineNodeIds g)
      (commInit (engineNodeIds g)) <
    communitiesFuel g (buildAdjacencyList g) := by
  have hcm : commMeasure (buildAdjacencyList g) (engineNodeIds g)
      (commInit (engineNodeIds g)) =
      (((engineNodeIds g).map
          (fun w => (adjOf (buildAdjacencyList g) w).length)).sum -
        monoE (buildAdjacencyList g) (engineNodeIds g)
          (commInit (engineNodeIds g))) * (engineNodeIds g).length +
      ((commInit (engineNodeIds g)).map (·.2)).sum := rfl
  have hfuel : communitiesFuel g (buildAdjacencyList g) =
      ((buildAdjacencyList g).map (·.2.length)).sum *
        (engineNodeIds g).length +
      (engineNodeIds g).length * (engineNodeIds g).length + 1 := rfl
  have hBB : ((engineNodeIds g).map
      (fun w => (adjOf (buildAdjacencyList g) w).length)).sum =
      ((buildAdjacencyList g).map (·.2.length)).sum := by
    rw [← keys_buildAdjacencyList g]
    exact sum_adjOf_lengths (buildAdjacencyList g)
      (by rw [keys_buildAdjacencyList g]; exact engineNodeIds_nodup g)
  have hvals : ((commInit (engineNodeIds g)).map (·.2)).sum ≤
      (engineNodeIds g).length * (engineNodeIds g).length := by
    rw [commInit_values]
    exact range_sum_le_sq _
  have hmul : (((engineNodeIds g).map
      (fun w => (adjOf (buildAdjacencyList g) w).length)).sum -
        monoE (buildAdjacencyList g) (engineNodeIds g)
          (commInit (engineNodeIds g))) * (engineNodeIds g).length ≤
      ((engineNodeIds g).map
        (fun w => (adjOf (buildAdjacencyList g) w).length)).sum *
        (engineNodeIds g).length :=
    Nat.mul_le_mul_right _ (Nat.sub_le _ _)
  rw [hcm, hfuel, ← hBB]
  omega

/-- **C6.**  Community detection terminates: on every graph satisfying
the data model's referential-integrity invariant (established for all
builder outputs by the C2 theorem), the label-propagation loop reaches
a pass that relabels nothing, so the labeling `detectCommunities`
returns is a genuine fixpoint of a full relabeling pass — the source's
uncapped `while (improved)` loop exits rather than oscillating forever.
The proof descends the measure `commMeasure`: every relabeling either
strictly increases the monochromatic-adjacency count or keeps it while
strictly decreasing the label sum. -/
theorem C6_termination (g : Graph) (hc : LinkClosed g) :
    commPass (buildAdjacencyList g) (engineNodeIds g)
        (detectCommunities g (buildAdjacencyList g)) =
      detectCommunities g (buildAdjacencyList g) := by
  have hsym : ∀ w u, u ∈ adjOf (buildAdjacencyList g) w ↔
      w ∈ adjOf (buildAdjacencyList g) u := by
    intro w u
    rw [mem_adjOf_buildAdjacencyList g hc w u,
      mem_adjOf_buildAdjacencyList g hc u w]
    constructor
    · rintro ⟨l, hl, ⟨h1, h2⟩ | ⟨h1, h2⟩⟩
      · exact ⟨l, hl, Or.inr ⟨h2, h1⟩⟩
      · exact ⟨l, hl, Or.inl ⟨h2, h1⟩⟩
    · rintro ⟨l, hl, ⟨h1, h2⟩ | ⟨h1, h2⟩⟩
      · exact ⟨l, hl, Or.inr ⟨h2, h1⟩⟩
      · exact ⟨l, hl, Or.inl ⟨h2, h1⟩⟩
  have hclosed : ∀ w u, u ∈ adjOf (buildAdjacencyList g) w →
      u ∈ engineNodeIds g := by
    intro w u hu
    obtain ⟨l, hl, hcase⟩ := (mem_adjOf_buildAdjacencyList g hc w u).1 hu
    rw [mem_engineNodeIds]
    rcases hcase with ⟨_, h2⟩ | ⟨_, h2⟩
    · exact h2 ▸ (hc l hl).2
    · exact h2 ▸ (hc l hl).1
  exact commLoop_fix (buildAdjacencyList g) (engineNodeIds g)
    (engineNodeIds_nodup g) hsym (adjOf_buildAdjacencyList_nodup g) hclosed
    (communitiesFuel g (buildAdjacencyList g))
    (commInit (engineNodeIds g)) (commInit_keys _)
    (fun w hw => commInit_labels_lt _ w hw) (commMeasure_init_lt g)

/-- Witness for C6 on the path graph `A–B–C`: it satisfies referential
integrity, and the community labeling the engine returns for it is a
fixpoint of a full relabeling pass. -/
theorem C6_witness :
    LinkClosed pathGraph ∧
    commPass (buildAdjacencyList pathGraph) (engineNodeIds pathGraph)
        (detectCommunities pathGraph (buildAdjacencyList pathGraph)) =
      detectCommunities pathGraph (buildAdjacencyList pathGraph) :=
  ⟨by decide, C6_termination pathGraph (by decide)⟩
